import Mathlib

set_option linter.unusedSectionVars false

/-!
Verification of the repository's three headers against their specification.

* `cxx` embeds `src/binder.h`: a copy-on-write ordered key-value container.
  Handles hold a `shared_ptr` to a `data_t`; we model the program state as a
  `World`: a heap of snapshots (addressed by `Nat`, one cell per
  `make_shared` call) plus the list of all live binder handles.  The
  `shared_ptr` use count of an address is the number of handles whose `data`
  field holds that address.  `std::bad_alloc` at each allocation site is
  modelled by a `Bool` oracle parameter per site (`true` = the allocation
  succeeds); an operation returns the post-state together with
  `Option BErr` (`none` = normal return, `some e` = throw).
* `polyv` embeds the single-variable, exact-integer instance of
  `src/poly.h` (`poly<int, N>` with `at` and `operator*`), with a
  coefficient list of length N.
* `flist` embeds `src/funclist.h`: Church-encoded lists; `std::string` is
  modelled as `List Char`.
-/

namespace cxx

/-- Logical contents of `binder::data_t`: the ordered note sequence.  The
`index` member of `data_t` is kept in bijection with `notes` by the source
(every key appears exactly once in both), so key lookup through the index is
modelled as key lookup in the sequence. -/
structure Snapshot (K V : Type) where
  notes : List (K × V)
deriving DecidableEq

/-- The keys of a snapshot in sequence order. -/
def Snapshot.keys {K V : Type} (s : Snapshot K V) : List K := s.notes.map Prod.fst

/-- The state of one `binder` handle: the address of the shared `data_t`
(or `none` for a null `shared_ptr`) and the `unsharable` flag. -/
structure BinderSt where
  data : Option Nat
  unsharable : Bool
deriving DecidableEq

/-- Whole-program state: the heap of `data_t` objects ever created
(addressed by position; a cell no handle references is garbage) and the
list of all live handles. -/
structure World (K V : Type) where
  heap : List (Snapshot K V)
  handles : List BinderSt
deriving DecidableEq

variable {K V : Type} [DecidableEq K]

/-- The snapshot at address `a` (an unallocated address reads as empty). -/
def World.snap (w : World K V) (a : Nat) : Snapshot K V := w.heap.getD a ⟨[]⟩

/-- The handle at index `i` (an out-of-range index reads as a default
handle: null pointer, flag clear). -/
def World.h (w : World K V) (i : Nat) : BinderSt := w.handles.getD i ⟨none, false⟩

/-- Number of handles in `hs` whose `data` pointer holds address `a`. -/
def refCount : List BinderSt → Nat → Nat
  | [], _ => 0
  | hb :: hs, a => (if hb.data = some a then 1 else 0) + refCount hs a

/-- `shared_ptr::use_count()` of address `a`: between operations the only
owners of a `data_t` are the handles. -/
def World.useCount (w : World K V) (a : Nat) : Nat := refCount w.handles a

/-- Number of handles in `hs` that hold address `a` with the unsharable
flag set. -/
def flagCount : List BinderSt → Nat → Nat
  | [], _ => 0
  | hb :: hs, a =>
    (if hb.data = some a ∧ hb.unsharable = true then 1 else 0) + flagCount hs a

/-- Counting form of the sharing invariant: at every address, either no
unsharable handle holds it, or it is held by exactly one handle. -/
def CntInv (hs : List BinderSt) : Prop :=
  ∀ a, flagCount hs a = 0 ∨ refCount hs a = 1

/-- Overwrite the snapshot stored at address `a` (in-place mutation through
the shared pointer). -/
def World.setSnap (w : World K V) (a : Nat) (s : Snapshot K V) : World K V :=
  ⟨w.heap.set a s, w.handles⟩

/-- Overwrite the handle at index `i`. -/
def World.setH (w : World K V) (i : Nat) (hb : BinderSt) : World K V :=
  ⟨w.heap, w.handles.set i hb⟩

/-- Thrown errors: the four `std::invalid_argument` messages of
`binder.h` plus `std::bad_alloc` from a failed allocation. -/
inductive BErr where
  | keyExists
  | prevKeyNotFound
  | keyNotFound
  | emptyBinder
  | badAlloc
deriving DecidableEq

/-- `binder::going_to_edit`: if the data is shared (`use_count() > 1`)
make a deep copy (a fresh heap cell with the same contents), otherwise
return the original.  `o2` is the allocation oracle for the copy
(`data_t`'s copy constructor is all-or-nothing: on an internal failure the
partially built copy is discarded and the exception propagates, which we
model as `none`).  Returns the new world, the target address, and whether
a clone was made. -/
def goEdit (o2 : Bool) (w : World K V) (a : Nat) : Option (World K V × Nat × Bool) :=
  if 1 < w.useCount a then
    if o2 then some (⟨w.heap ++ [w.snap a], w.handles⟩, w.heap.length, true)
    else none
  else some (w, a, false)

/-- The state left behind by `insert_front`'s lazy
`data = std::make_shared<data_t>()` on a null handle: the handle owns a
fresh empty snapshot (only the pointer is assigned; the flag is
untouched). -/
def lazyAlloc (w : World K V) (i : Nat) : World K V :=
  ⟨w.heap ++ [⟨[]⟩], w.handles.set i ⟨some w.heap.length, (w.h i).unsharable⟩⟩

/-- `binder::insert_front`.  Oracles: `o1` the lazy `make_shared` of an
empty `data_t` when the handle is null, `o2` the clone in
`going_to_edit`, `o3` the list node for `emplace_front`, `o4` the index
node for `index.emplace`.  When `o4` fails the source pops the fresh list
node before rethrowing, and a cloned target is destroyed with the last
`shared_ptr` to it, so the net state on failure is the pre-`going_to_edit`
state. -/
def insert_front (o1 o2 o3 o4 : Bool) (w : World K V) (i : Nat) (k : K) (v : V) :
    World K V × Option BErr :=
  match (w.h i).data with
  | some a =>
    if k ∈ (w.snap a).keys then (w, some .keyExists)
    else
      match goEdit o2 w a with
      | none => (w, some .badAlloc)
      | some (w2, t, _) =>
        if o3 && o4 then
          ((w2.setSnap t ⟨(k, v) :: (w2.snap t).notes⟩).setH i ⟨some t, false⟩, none)
        else (w, some .badAlloc)
  | none =>
    if o1 then
      match goEdit o2 (lazyAlloc w i) w.heap.length with
      | none => (lazyAlloc w i, some .badAlloc)
      | some (w2, t, _) =>
        if o3 && o4 then
          ((w2.setSnap t ⟨(k, v) :: (w2.snap t).notes⟩).setH i ⟨some t, false⟩, none)
        else (lazyAlloc w i, some .badAlloc)
    else (w, some .badAlloc)

/-- Insert `x` at position `n` of a list (`std::list::insert` before the
iterator at position `n`). -/
def listInsertAt {α : Type} : Nat → α → List α → List α
  | _, x, [] => [x]
  | 0, x, l => x :: l
  | n + 1, x, e :: l => e :: listInsertAt n x l

/-- `binder::insert_after`.  Checks `prev_k` first, then the duplicate
key; inserts directly after `prev_k`'s note.  Oracles as in
`insert_front` (no lazy allocation: a null handle cannot contain
`prev_k`). -/
def insert_after (o2 o3 o4 : Bool) (w : World K V) (i : Nat) (pk k : K) (v : V) :
    World K V × Option BErr :=
  match (w.h i).data with
  | none => (w, some .prevKeyNotFound)
  | some a =>
    if pk ∉ (w.snap a).keys then (w, some .prevKeyNotFound)
    else if k ∈ (w.snap a).keys then (w, some .keyExists)
    else
      match goEdit o2 w a with
      | none => (w, some .badAlloc)
      | some (w2, t, _) =>
        if o3 && o4 then
          ((w2.setSnap t
              ⟨listInsertAt ((w2.snap t).notes.findIdx (fun e => decide (e.1 = pk)) + 1)
                (k, v) (w2.snap t).notes⟩).setH i ⟨some t, false⟩, none)
        else (w, some .badAlloc)

/-- `binder::remove(const K&)`: erase the note with key `k` from index and
sequence (erasure does not allocate, so after a successful
`going_to_edit` the operation cannot fail). -/
def remove_key (o2 : Bool) (w : World K V) (i : Nat) (k : K) : World K V × Option BErr :=
  match (w.h i).data with
  | none => (w, some .keyNotFound)
  | some a =>
    if k ∉ (w.snap a).keys then (w, some .keyNotFound)
    else
      match goEdit o2 w a with
      | none => (w, some .badAlloc)
      | some (w2, t, _) =>
        ((w2.setSnap t ⟨(w2.snap t).notes.eraseP (fun e => decide (e.1 = k))⟩).setH i
          ⟨some t, false⟩, none)

/-- `binder::remove()`: delegate to `remove(front key)` after the
emptiness check (`size() == 0` covers both a null handle and an empty
snapshot). -/
def remove_front (o2 : Bool) (w : World K V) (i : Nat) : World K V × Option BErr :=
  match (w.h i).data with
  | none => (w, some .emptyBinder)
  | some a =>
    match (w.snap a).notes with
    | [] => (w, some .emptyBinder)
    | e :: _ => remove_key o2 w i e.1

/-- Mutable `binder::read`: after `going_to_edit` and `successful_edit`
the flag is set to `unsharable = true` because a mutable reference into
the committed snapshot escapes to the caller. -/
def read_mut (o2 : Bool) (w : World K V) (i : Nat) (k : K) : World K V × Option BErr :=
  match (w.h i).data with
  | none => (w, some .keyNotFound)
  | some a =>
    if k ∉ (w.snap a).keys then (w, some .keyNotFound)
    else
      match goEdit o2 w a with
      | none => (w, some .badAlloc)
      | some (w2, t, _) => (w2.setH i ⟨some t, true⟩, none)

/-- Const `binder::read`: no state change; reports only the error. -/
def read_const (w : World K V) (i : Nat) (k : K) : Option BErr :=
  match (w.h i).data with
  | none => some .keyNotFound
  | some a => if k ∈ (w.snap a).keys then none else some .keyNotFound

/-- The value the `read` overloads return for key `k`. -/
def World.valueAt (w : World K V) (i : Nat) (k : K) : Option V :=
  match (w.h i).data with
  | none => none
  | some a => ((w.snap a).notes.find? (fun e => decide (e.1 = k))).map Prod.snd

/-- `binder::size`. -/
def World.size (w : World K V) (i : Nat) : Nat :=
  match (w.h i).data with
  | none => 0
  | some a => (w.snap a).notes.length

/-- The sequence visited by iterating `cbegin()`..`cend()` (paired with
the keys; `operator*` yields the values). -/
def World.toList (w : World K V) (i : Nat) : List (K × V) :=
  match (w.h i).data with
  | none => []
  | some a => (w.snap a).notes

/-- `binder()` — a new handle with null data and clear flag. -/
def default_ctor (w : World K V) : World K V := ⟨w.heap, w.handles ++ [⟨none, false⟩]⟩

/-- `binder(const binder&)`: deep-clone when the source is unsharable and
non-null, otherwise share the pointer.  The new handle's flag is the
member default `false`.  `oc` is the oracle for the clone. -/
def copy_ctor (oc : Bool) (w : World K V) (src : Nat) : World K V × Option BErr :=
  match (w.h src).data with
  | some a =>
    if (w.h src).unsharable then
      if oc then (⟨w.heap ++ [w.snap a], w.handles ++ [⟨some w.heap.length, false⟩]⟩, none)
      else (w, some .badAlloc)
    else (⟨w.heap, w.handles ++ [⟨some a, false⟩]⟩, none)
  | none => (⟨w.heap, w.handles ++ [⟨none, false⟩]⟩, none)

/-- `binder(binder&&)`: the new handle takes the pointer and copies the
flag; the source's pointer becomes null and its flag keeps its value. -/
def move_ctor (w : World K V) (src : Nat) : World K V :=
  ⟨w.heap,
    (w.handles.set src ⟨none, (w.h src).unsharable⟩) ++ [⟨(w.h src).data, (w.h src).unsharable⟩]⟩

/-- `operator=` called with a moved-from argument (`b2 = std::move(b)`):
the by-value parameter is move-constructed from `src` (detaching it), its
pointer is swapped into `dst`, `dst.unsharable` is set to `false`, and the
parameter dies holding `dst`'s old pointer. -/
def move_assign (w : World K V) (dst src : Nat) : World K V :=
  ⟨w.heap, (w.handles.set src ⟨none, (w.h src).unsharable⟩).set dst ⟨(w.h src).data, false⟩⟩

/-- `operator=` called with an lvalue argument (`b2 = b`): the by-value
parameter is copy-constructed from `src` (deep-cloning if `src` is
unsharable and non-null — `oc` is that clone's oracle; if it throws the
assignment body is never entered), then swapped into `dst`, whose flag is
cleared. -/
def copy_assign (oc : Bool) (w : World K V) (dst src : Nat) : World K V × Option BErr :=
  match (w.h src).data with
  | some a =>
    if (w.h src).unsharable then
      if oc then (⟨w.heap ++ [w.snap a], w.handles.set dst ⟨some w.heap.length, false⟩⟩, none)
      else (w, some .badAlloc)
    else (⟨w.heap, w.handles.set dst ⟨some a, false⟩⟩, none)
  | none => (⟨w.heap, w.handles.set dst ⟨none, false⟩⟩, none)

/-- `binder::clear`. -/
def clear (w : World K V) (i : Nat) : World K V := ⟨w.heap, w.handles.set i ⟨none, false⟩⟩

/-- A later in-place write through the reference returned by mutable
`read(k)`: the referenced value cell lives in handle `i`'s current
snapshot, so the write updates that snapshot directly, bypassing the
ownership controller. -/
def write_through (w : World K V) (i : Nat) (k : K) (v : V) : World K V :=
  match (w.h i).data with
  | none => w
  | some a => w.setSnap a ⟨(w.snap a).notes.map (fun e => if e.1 = k then (e.1, v) else e)⟩

/-- One step of any `binder` operation, for statements quantifying over
the whole interface. -/
inductive Act (K V : Type) where
  | defaultCtor
  | copyCtor (oc : Bool) (src : Nat)
  | moveCtor (src : Nat)
  | copyAssign (oc : Bool) (dst src : Nat)
  | moveAssign (dst src : Nat)
  | insertFront (o1 o2 o3 o4 : Bool) (i : Nat) (k : K) (v : V)
  | insertAfter (o2 o3 o4 : Bool) (i : Nat) (pk k : K) (v : V)
  | removeFront (o2 : Bool) (i : Nat)
  | removeKey (o2 : Bool) (i : Nat) (k : K)
  | readMut (o2 : Bool) (i : Nat) (k : K)
  | readConst (i : Nat) (k : K)
  | sizeQuery (i : Nat)
  | clearOp (i : Nat)

/-- Execute one operation. -/
def step (w : World K V) : Act K V → World K V × Option BErr
  | .defaultCtor => (default_ctor w, none)
  | .copyCtor oc src => copy_ctor oc w src
  | .moveCtor src => (move_ctor w src, none)
  | .copyAssign oc dst src => copy_assign oc w dst src
  | .moveAssign dst src => (move_assign w dst src, none)
  | .insertFront o1 o2 o3 o4 i k v => insert_front o1 o2 o3 o4 w i k v
  | .insertAfter o2 o3 o4 i pk k v => insert_after o2 o3 o4 w i pk k v
  | .removeFront o2 i => remove_front o2 w i
  | .removeKey o2 i k => remove_key o2 w i k
  | .readMut o2 i k => read_mut o2 w i k
  | .readConst i k => (w, read_const w i k)
  | .sizeQuery _ => (w, none)
  | .clearOp i => (clear w i, none)

/-- The container mutators of one handle, with every allocation
succeeding — the alphabet of the successful-call sequences of the
specification's iteration-order property. -/
inductive COp (K V : Type) where
  | ifront (k : K) (v : V)
  | iafter (pk k : K) (v : V)
  | rfront
  | rkey (k : K)

/-- A container mutator as an `Act` on handle `i` (all oracles true). -/
def copAct {K V : Type} (i : Nat) : COp K V → Act K V
  | .ifront k v => .insertFront true true true true i k v
  | .iafter pk k v => .insertAfter true true true i pk k v
  | .rfront => .removeFront true i
  | .rkey k => .removeKey true i k

/-- Run a sequence of container mutators on handle `i`, stopping at the
first throw; the flag reports whether every call succeeded. -/
def runOps (w : World K V) (i : Nat) : List (COp K V) → World K V × Bool
  | [] => (w, true)
  | op :: ops =>
    match step w (copAct i op) with
    | (w', none) => runOps w' i ops
    | (w', some _) => (w', false)

/-- Modelled from the spec: the logical order defined by the calls'
placement — `insert_front` places first, `insert_after pk` places
immediately after `pk`'s entry, the removes delete; `none` when the
call's precondition fails. -/
def specStep (l : List (K × V)) : COp K V → Option (List (K × V))
  | .ifront k v => if k ∈ l.map Prod.fst then none else some ((k, v) :: l)
  | .iafter pk k v =>
    if pk ∈ l.map Prod.fst ∧ k ∉ l.map Prod.fst then
      some (listInsertAt (l.findIdx (fun e => decide (e.1 = pk)) + 1) (k, v) l)
    else none
  | .rfront => match l with | [] => none | _ :: t => some t
  | .rkey k =>
    if k ∈ l.map Prod.fst then some (l.eraseP (fun e => decide (e.1 = k))) else none

/-- Modelled from the spec: the logical order after a whole call
sequence. -/
def specRun : List (K × V) → List (COp K V) → Option (List (K × V))
  | l, [] => some l
  | l, op :: ops =>
    match specStep l op with
    | none => none
    | some l2 => specRun l2 ops

/-- Heap well-formedness: every non-null handle points at an allocated
cell. -/
def WFb (w : World K V) : Bool :=
  w.handles.all fun hb =>
    match hb.data with
    | none => true
    | some a => decide (a < w.heap.length)

def WF (w : World K V) : Prop := WFb w = true

/-- The implicit sharing invariant: an unsharable handle is the sole
owner of its snapshot. -/
def Invb (w : World K V) : Bool :=
  w.handles.all fun hb =>
    !hb.unsharable ||
      (match hb.data with
       | none => true
       | some a => w.useCount a == 1)

def Inv (w : World K V) : Prop := Invb w = true

/-- The five mutating handle operations (insert_front, insert_after,
remove, remove(k), mutable read). -/
def MutAct : Act K V → Prop
  | .insertFront _ _ _ _ _ _ _ => True
  | .insertAfter _ _ _ _ _ _ _ => True
  | .removeFront _ _ => True
  | .removeKey _ _ _ => True
  | .readMut _ _ _ => True
  | _ => False

/-- The handle index an operation acts on (`0` for the default
constructor, which has no subject handle). -/
def actIdx : Act K V → Nat
  | .defaultCtor => 0
  | .copyCtor _ s => s
  | .moveCtor s => s
  | .copyAssign _ d _ => d
  | .moveAssign d _ => d
  | .insertFront _ _ _ _ i _ _ => i
  | .insertAfter _ _ _ i _ _ _ => i
  | .removeFront _ i => i
  | .removeKey _ i _ => i
  | .readMut _ i _ => i
  | .readConst i _ => i
  | .sizeQuery i => i
  | .clearOp i => i

/-- Key `k` is present in handle `i`'s container. -/
def hasKey (w : World K V) (i : Nat) (k : K) : Bool :=
  match (w.h i).data with
  | none => false
  | some a => decide (k ∈ (w.snap a).keys)

/-- The operation's handle indices refer to live handles. -/
def actOK (w : World K V) : Act K V → Bool
  | .defaultCtor => true
  | .copyCtor _ s => decide (s < w.handles.length)
  | .moveCtor s => decide (s < w.handles.length)
  | .copyAssign _ d s => decide (d < w.handles.length) && decide (s < w.handles.length)
  | .moveAssign d s => decide (d < w.handles.length) && decide (s < w.handles.length)
  | .insertFront _ _ _ _ i _ _ => decide (i < w.handles.length)
  | .insertAfter _ _ _ i _ _ _ => decide (i < w.handles.length)
  | .removeFront _ i => decide (i < w.handles.length)
  | .removeKey _ i _ => decide (i < w.handles.length)
  | .readMut _ i _ => decide (i < w.handles.length)
  | .readConst _ _ => true
  | .sizeQuery _ => true
  | .clearOp i => decide (i < w.handles.length)

/-- The specification's concrete scenario, §8: the empty program state. -/
def w0 : World Nat String := ⟨[], []⟩

/-- `binder<int, string> b` — handle 0. -/
def wA : World Nat String := (step w0 .defaultCtor).1

/-- after `b.insert_front(1, "a")`. -/
def wB : World Nat String := (step wA (.insertFront true true true true 0 1 "a")).1

/-- after `b.insert_front(2, "b")`. -/
def wC : World Nat String := (step wB (.insertFront true true true true 0 2 "b")).1

/-- after `b.insert_after(2, 3, "c")`. -/
def wD : World Nat String := (step wC (.insertAfter true true true 0 2 3 "c")).1

/-- after the mutable `b.read(3)`. -/
def wE : World Nat String := (step wD (.readMut true 0 3)).1

/-- after `binder b2 = b` — handle 1. -/
def wF : World Nat String := (step wE (.copyCtor true 0)).1

/-- after `b.remove(1)`. -/
def wG : World Nat String := (step wF (.removeKey true 0 1)).1

/-- a world where two handles share one snapshot: a cheap copy of the
(shareable) handle of `wC`. -/
def wShare : World Nat String := (step wC (.copyCtor true 0)).1

end cxx

namespace polyv

/-- `poly<int, N>::at_loop<U, I>`: Horner evaluation of the coefficient
tail from index `I` — `coefficients[I]` when `I == N - 1`, else
`coefficients[I] + arg * at_loop<I+1>(arg)`.  The tail from index `I` is
the list argument; the source never reaches an empty tail (`at_loop` is
only instantiated with `N > 0`). -/
def at_loop (x : Int) : List Int → Int
  | [] => 0
  | [c] => c
  | c :: cs => c + x * at_loop x cs

/-- `poly<int, N>::at(x)` for a scalar coefficient type: `T{}` (zero)
when `N == 0`, else `at_loop<U, 0>(x)`. -/
def polyAt (c : List Int) (x : Int) : Int :=
  match c with
  | [] => 0
  | _ => at_loop x c

/-- `operator*(poly<T,N>, poly<U,M>)`: the size-0 polynomial when
`N == 0 || M == 0`, else the polynomial of size `N + M - 1` whose
coefficient `n` accumulates `a[i] * b[j]` over every loop iteration with
`i + j == n` (the `+=` accumulation of the nested loops, written as the
sum over both loop ranges). -/
def polyMul (a b : List Int) : List Int :=
  if a.length = 0 ∨ b.length = 0 then []
  else
    (List.range (a.length + b.length - 1)).map fun n =>
      (Finset.range a.length).sum fun i =>
        (Finset.range b.length).sum fun j =>
          if i + j = n then a.getD i 0 * b.getD j 0 else 0

/-- The polynomial `∑ i, c[i] * X^i` denoted by a coefficient list. -/
noncomputable def toP (c : List Int) : Polynomial Int :=
  (Finset.range c.length).sum fun i => Polynomial.C (c.getD i 0) * Polynomial.X ^ i

end polyv

namespace flist

/-- A `funclist.h` list: a higher-order fold, `l(f, a)` folding `f` over
the elements with initial accumulator `a` (the C++ generic lambda is
polymorphic in the accumulator type `A`). -/
def FList (α : Type) : Type 1 := ∀ A : Type, (α → A → A) → A → A

/-- `flist::empty`. -/
def empty {α : Type} : FList α := fun _ _ a => a

/-- `flist::cons`. -/
def cons {α : Type} (x : α) (l : FList α) : FList α := fun A f a => f x (l A f a)

/-- `flist::create(x1, ..., xn)` (via `detail::create`: `empty` for no
arguments, else `cons(x1, create(x2, ..., xn))`); the variadic pack is
the list argument. -/
def create {α : Type} (xs : List α) : FList α := xs.foldr cons empty

/-- `flist::as_string`, with `std::string` modelled as `List Char` and
`operator<<` on the element type as `render`.  The C++ folds with a
callback that appends `x << ';'` to an `elements` vector as a side
effect; since the inner fold call is evaluated before the outer callback
runs, the vector receives the rendered elements last-to-first, which the
pure fold below reproduces with the vector as accumulator.  The strings
are then concatenated in reverse vector order after `"["`, the trailing
`';'` is popped when the result is longer than `"["` alone, and `"]"` is
appended. -/
def as_string {α : Type} (render : α → List Char) (l : FList α) : List Char :=
  let elements := l (List (List Char)) (fun x acc => acc ++ [render x ++ [';']]) []
  let result := ['['] ++ elements.reverse.flatten
  let result2 := if result.length > 1 then result.dropLast else result
  result2 ++ [']']

/-- Modelled from the spec: the elements separated by `';'`
(`"x1;x2;...;xn"`). -/
def sepBySemi : List (List Char) → List Char
  | [] => []
  | [s] => s
  | s :: rest => s ++ [';'] ++ sepBySemi rest

end flist

/-! ### List and world accessor lemmas -/

namespace cxx

variable {K V : Type} [DecidableEq K]

theorem getD_set_self {α : Type} (l : List α) (i : Nat) (x d : α) (h : i < l.length) :
    (l.set i x).getD i d = x := by
  simp [List.getD, List.getElem?_set_self, h]

theorem getD_set_ne {α : Type} (l : List α) (i j : Nat) (x d : α) (h : i ≠ j) :
    (l.set i x).getD j d = l.getD j d := by
  simp [List.getD, List.getElem?_set_ne h]

theorem getD_append_lt {α : Type} (l l' : List α) (i : Nat) (d : α) (h : i < l.length) :
    (l ++ l').getD i d = l.getD i d := List.getD_append l l' d i h

theorem getD_append_len {α : Type} (l : List α) (x d : α) :
    (l ++ [x]).getD l.length d = x := by
  simp [List.getD_append_right]

theorem h_setH_self (w : World K V) (i : Nat) (hb : BinderSt) (h : i < w.handles.length) :
    (w.setH i hb).h i = hb := getD_set_self _ _ _ _ h

theorem h_setH_ne (w : World K V) (i j : Nat) (hb : BinderSt) (h : i ≠ j) :
    (w.setH i hb).h j = w.h j := getD_set_ne _ _ _ _ _ h

theorem h_setSnap (w : World K V) (a : Nat) (s : Snapshot K V) (j : Nat) :
    (w.setSnap a s).h j = w.h j := rfl

theorem snap_setH (w : World K V) (i : Nat) (hb : BinderSt) (b : Nat) :
    (w.setH i hb).snap b = w.snap b := rfl

theorem snap_setSnap_self (w : World K V) (a : Nat) (s : Snapshot K V) (h : a < w.heap.length) :
    (w.setSnap a s).snap a = s := getD_set_self _ _ _ _ h

theorem snap_setSnap_ne (w : World K V) (a b : Nat) (s : Snapshot K V) (h : a ≠ b) :
    (w.setSnap a s).snap b = w.snap b := getD_set_ne _ _ _ _ _ h

theorem size_eq_toList_length (w : World K V) (i : Nat) :
    w.size i = (w.toList i).length := by
  unfold World.size World.toList
  cases (w.h i).data <;> rfl

theorem data_some_lt_length {w : World K V} {i a : Nat} (h : (w.h i).data = some a) :
    i < w.handles.length := by
  by_contra hn
  rw [World.h, List.getD_eq_default _ _ (Nat.le_of_not_lt hn)] at h
  exact Option.noConfusion h

/-! ### Concrete claim checks -/

/-- C7: the specification's concrete scenario.  Starting from an empty
handle `b`: after `b.insert_front(1,"a")` the order is `[1]`; after
`b.insert_front(2,"b")` the order is `[2,1]`; after
`b.insert_after(2,3,"c")` the order is `[2,3,1]` and `b.read(3)` returns
`"c"`; after `b2 = b` and `b.remove(1)`, `b.size() == 2` with order
`[2,3]`, while `b2.size() == 3` and `b2` still contains key `1` with
value `"a"`. -/
theorem C7_scenario :
    (step w0 .defaultCtor).2 = none
    ∧ (step wA (.insertFront true true true true 0 1 "a")).2 = none
    ∧ (wB.toList 0).map Prod.fst = [1]
    ∧ (step wB (.insertFront true true true true 0 2 "b")).2 = none
    ∧ (wC.toList 0).map Prod.fst = [2, 1]
    ∧ (step wC (.insertAfter true true true 0 2 3 "c")).2 = none
    ∧ (wD.toList 0).map Prod.fst = [2, 3, 1]
    ∧ (step wD (.readMut true 0 3)).2 = none
    ∧ wE.valueAt 0 3 = some "c"
    ∧ (step wE (.copyCtor true 0)).2 = none
    ∧ (step wF (.removeKey true 0 1)).2 = none
    ∧ wG.size 0 = 2
    ∧ (wG.toList 0).map Prod.fst = [2, 3]
    ∧ wG.size 1 = 3
    ∧ wG.valueAt 1 1 = some "a" := by
  decide

/-- C1 counterexample: `insert_front` on an empty (no-snapshot) handle
first assigns a fresh empty snapshot to the handle; when a later
allocation fails the exception leaves the handle referencing that
snapshot, so a failed call does not leave the handle with no Snapshot
reference. -/
theorem C1_cex :
    (wA.h 0).data = none
    ∧ (step wA (.insertFront true true false true 0 1 "a")).2 = some BErr.badAlloc
    ∧ ((step wA (.insertFront true true false true 0 1 "a")).1.h 0).data ≠ none := by
  decide

/-- C2 counterexample: `wE` is reached by real calls and its handle 0 is
marked unshareable while being the sole owner of snapshot 0; a further
`insert_front` then mutates snapshot 0 in place (same address, changed
contents) instead of deep-cloning as the claim requires for an
unshareable snapshot. -/
theorem C2_cex :
    (wE.h 0).unsharable = true
    ∧ (wE.h 0).data = some 0
    ∧ wE.useCount 0 = 1
    ∧ (step wE (.insertFront true true true true 0 9 "z")).2 = none
    ∧ ((step wE (.insertFront true true true true 0 9 "z")).1.h 0).data = some 0
    ∧ (step wE (.insertFront true true true true 0 9 "z")).1.snap 0 ≠ wE.snap 0 := by
  decide

/-- C4 counterexample: in `wF` the source handle 0 is unsharable
(flag `true`); move-assigning it into handle 1 transfers the pointer and
detaches the source, but the destination's flag becomes `false`, not the
source's `true`. -/
theorem C4_cex :
    (wF.h 0).unsharable = true
    ∧ (wF.h 0).data = some 0
    ∧ ((move_assign wF 1 0).h 1).data = some 0
    ∧ ((move_assign wF 1 0).h 0).data = none
    ∧ ((move_assign wF 1 0).h 1).unsharable = false := by
  decide

/-- C5 counterexample: `insert_after` checks its anchor first, so a call
whose new key `k` is already present fails with the prev-key-not-found
error, not key-already-exists, whenever the anchor is absent. -/
theorem C5_cex :
    hasKey wB 0 1 = true
    ∧ (insert_after true true true wB 0 5 1 "x").2 = some BErr.prevKeyNotFound
    ∧ (insert_after true true true wB 0 5 1 "x").2 ≠ some BErr.keyExists := by
  decide

/-! ### Well-formedness -/

theorem getD_mem {α : Type} (l : List α) (n : Nat) (d : α) (h : n < l.length) :
    l.getD n d ∈ l := by
  simp [List.getD, List.getElem?_eq_getElem h]

theorem WF_iff (w : World K V) :
    WF w ↔ ∀ hb ∈ w.handles, ∀ a, hb.data = some a → a < w.heap.length := by
  unfold WF WFb
  rw [List.all_eq_true]
  constructor
  · intro h hb hmem a hda
    have h2 := h hb hmem
    rw [hda] at h2
    exact of_decide_eq_true h2
  · intro h hb hmem
    cases hda : hb.data with
    | none => rfl
    | some a => exact decide_eq_true (h hb hmem a hda)

theorem WF_of_forall {heap : List (Snapshot K V)} {hs : List BinderSt}
    (h : ∀ hb ∈ hs, ∀ a, hb.data = some a → a < heap.length) :
    WF (⟨heap, hs⟩ : World K V) :=
  (WF_iff _).mpr h

theorem wf_h {w : World K V} {i a : Nat} (hw : WF w) (h : (w.h i).data = some a) :
    a < w.heap.length := by
  have hi := data_some_lt_length h
  rw [WF_iff] at hw
  exact hw (w.h i) (getD_mem _ _ _ hi) a h

/-- Well-formedness is stable under replacing the heap by a longer one
and overwriting one handle with a handle pointing below the new
length. -/
theorem wf_update {w : World K V} (heap2 : List (Snapshot K V)) (i : Nat) (hb : BinderSt)
    (hw : WF w) (hlen : w.heap.length ≤ heap2.length)
    (hhb : ∀ a, hb.data = some a → a < heap2.length) :
    WF (⟨heap2, w.handles.set i hb⟩ : World K V) := by
  apply WF_of_forall
  intro x hmem a hda
  rcases List.mem_or_eq_of_mem_set hmem with hx | rfl
  · exact Nat.lt_of_lt_of_le (((WF_iff w).mp hw) x hx a hda) hlen
  · exact hhb a hda

theorem wf_extend {w : World K V} (heap2 : List (Snapshot K V))
    (hw : WF w) (hlen : w.heap.length ≤ heap2.length) :
    WF (⟨heap2, w.handles⟩ : World K V) := by
  apply WF_of_forall
  intro x hmem a hda
  exact Nat.lt_of_lt_of_le (((WF_iff w).mp hw) x hmem a hda) hlen

theorem wf_append_handle {w : World K V} (heap2 : List (Snapshot K V)) (hb : BinderSt)
    (hw : WF w) (hlen : w.heap.length ≤ heap2.length)
    (hhb : ∀ a, hb.data = some a → a < heap2.length) :
    WF (⟨heap2, w.handles ++ [hb]⟩ : World K V) := by
  apply WF_of_forall
  intro x hmem a hda
  rcases List.mem_append.mp hmem with hx | hx
  · exact Nat.lt_of_lt_of_le (((WF_iff w).mp hw) x hx a hda) hlen
  · rw [List.mem_singleton.mp hx] at hda
    exact hhb a hda

/-! ### The copy-on-write gate -/

theorem goEdit_spec {o2 : Bool} {w w2 : World K V} {a t : Nat} {c : Bool}
    (h : goEdit o2 w a = some (w2, t, c)) :
    w2.handles = w.handles
    ∧ w2.snap t = w.snap a
    ∧ (∀ b, b < w.heap.length → b ≠ t → w2.snap b = w.snap b)
    ∧ w.heap.length ≤ w2.heap.length
    ∧ (a < w.heap.length → t < w2.heap.length)
    ∧ (c = true → t = w.heap.length ∧ w2.heap = w.heap ++ [w.snap a] ∧ 1 < w.useCount a)
    ∧ (c = false → w2 = w ∧ t = a ∧ w.useCount a ≤ 1) := by
  rw [goEdit] at h
  by_cases hc : 1 < w.useCount a
  · rw [if_pos hc] at h
    cases o2 with
    | false => simp at h
    | true =>
      simp only [Option.some.injEq, Prod.mk.injEq, if_pos] at h
      obtain ⟨rfl, rfl, rfl⟩ := h
      refine ⟨rfl, getD_append_len _ _ _, fun b hb hbt => getD_append_lt _ _ _ _ hb, ?_, ?_, ?_, ?_⟩
      · simp [Nat.le_succ]
      · intro _
        simp
      · exact fun _ => ⟨rfl, rfl, hc⟩
      · intro hcf
        exact absurd hcf (by simp)
  · rw [if_neg hc] at h
    simp only [Option.some.injEq, Prod.mk.injEq] at h
    obtain ⟨rfl, rfl, rfl⟩ := h
    exact ⟨rfl, rfl, fun b hb hbt => rfl, Nat.le_refl _, fun ha => ha, fun hct => absurd hct (by simp),
      fun _ => ⟨rfl, rfl, Nat.le_of_not_lt hc⟩⟩

/-! ### Effect of each successful operation -/

/-- The common commit pattern `(w2.setSnap t s).setH i ⟨some t, b⟩`,
described for a target obtained from `goEdit` on a well-formed world. -/
theorem commit_spec {w w2 : World K V} {o2 : Bool} {a t i : Nat} {c b : Bool}
    {s : Snapshot K V}
    (hwf : WF w) (hd : (w.h i).data = some a)
    (hge : goEdit o2 w a = some (w2, t, c)) :
    ((w2.setSnap t s).setH i ⟨some t, b⟩).h i = ⟨some t, b⟩
    ∧ ((w2.setSnap t s).setH i ⟨some t, b⟩).toList i = s.notes
    ∧ (∀ j, j ≠ i → ((w2.setSnap t s).setH i ⟨some t, b⟩).h j = w.h j)
    ∧ ((w2.setSnap t s).setH i ⟨some t, b⟩).handles.length = w.handles.length
    ∧ (c = true →
        ((w2.setSnap t s).setH i ⟨some t, b⟩).h i = ⟨some w.heap.length, b⟩
        ∧ ∀ e, e < w.heap.length → ((w2.setSnap t s).setH i ⟨some t, b⟩).snap e = w.snap e)
    ∧ (c = false →
        ((w2.setSnap t s).setH i ⟨some t, b⟩).h i = ⟨some a, b⟩
        ∧ ∀ e, e < w.heap.length → e ≠ a →
            ((w2.setSnap t s).setH i ⟨some t, b⟩).snap e = w.snap e)
    ∧ WF ((w2.setSnap t s).setH i ⟨some t, b⟩) := by
  obtain ⟨hh, hst, hpres, hlen, hlt, hct, hcf⟩ := goEdit_spec hge
  have hi : i < w.handles.length := data_some_lt_length hd
  have ha : a < w.heap.length := wf_h hwf hd
  have hi2 : i < (w2.setSnap t s).handles.length := by
    show i < w2.handles.length
    rw [hh]
    exact hi
  have htlt : t < w2.heap.length := hlt ha
  have hhi : ((w2.setSnap t s).setH i ⟨some t, b⟩).h i = ⟨some t, b⟩ :=
    h_setH_self _ _ _ hi2
  have hsnapt : ((w2.setSnap t s).setH i ⟨some t, b⟩).snap t = s := by
    rw [snap_setH]
    exact snap_setSnap_self _ _ _ htlt
  refine ⟨hhi, ?_, ?_, ?_, ?_, ?_, ?_⟩
  · show (((w2.setSnap t s).setH i ⟨some t, b⟩).toList i) = s.notes
    rw [World.toList, hhi]
    exact congrArg Snapshot.notes hsnapt
  · intro j hj
    rw [h_setH_ne _ _ _ _ (fun hij => hj hij.symm), h_setSnap]
    rw [show (w2.h j) = w2.handles.getD j ⟨none, false⟩ from rfl, hh]
    rfl
  · show (w2.handles.set i _).length = _
    rw [List.length_set, hh]
  · intro hc
    obtain ⟨rfl, _, _⟩ := hct hc
    constructor
    · exact hhi
    · intro e he
      have het : e ≠ w.heap.length := Nat.ne_of_lt he
      have h1 : ((w2.setSnap w.heap.length s).setH i ⟨some w.heap.length, b⟩).snap e
          = w2.snap e := by
        rw [snap_setH]
        exact snap_setSnap_ne _ _ _ _ (fun hte => het hte.symm)
      exact h1.trans (hpres e he het)
  · intro hc
    obtain ⟨hww, hta, _⟩ := hcf hc
    constructor
    · rw [hhi, hta]
    · intro e he hea
      have h1 : ((w2.setSnap t s).setH i ⟨some t, b⟩).snap e = w2.snap e := by
        rw [snap_setH]
        refine snap_setSnap_ne _ _ _ _ (fun hte => ?_)
        rw [hta] at hte
        exact hea hte.symm
      rw [h1, hww]
  · show WF (⟨w2.heap.set t s, w2.handles.set i _⟩ : World K V)
    have hw2 : WF w2 := by
      cases c with
      | true =>
        obtain ⟨_, hheap, _⟩ := hct rfl
        have hwx := wf_extend (w := w) (w.heap ++ [w.snap a]) hwf (by simp)
        rw [show (⟨w.heap ++ [w.snap a], w.handles⟩ : World K V) = w2 from ?_] at hwx
        · exact hwx
        · cases w2 with
          | mk hp hs =>
            simp only [World.mk.injEq]
            simp only at hheap hh
            exact ⟨hheap.symm, hh.symm⟩
      | false =>
        obtain ⟨rfl, _, _⟩ := hcf rfl
        exact hwf
    exact wf_update (w := w2) (w2.heap.set t s) i ⟨some t, b⟩ hw2 (by rw [List.length_set])
      (by intro x hx; cases hx; rw [List.length_set]; exact htlt)

/-! ### Reference counting -/

theorem refCount_append (l l' : List BinderSt) (a : Nat) :
    refCount (l ++ l') a = refCount l a + refCount l' a := by
  induction l with
  | nil => simp [refCount]
  | cons x xs ih =>
    show (if x.data = some a then 1 else 0) + refCount (xs ++ l') a
        = ((if x.data = some a then 1 else 0) + refCount xs a) + refCount l' a
    rw [ih]
    omega

theorem refCount_set (l : List BinderSt) (i : Nat) (x : BinderSt) (a : Nat) (h : i < l.length) :
    refCount (l.set i x) a + (if (l.getD i ⟨none, false⟩).data = some a then 1 else 0)
      = refCount l a + (if x.data = some a then 1 else 0) := by
  induction l generalizing i with
  | nil => simp at h
  | cons y ys ih =>
    cases i with
    | zero =>
      simp only [List.set_cons_zero, List.getD_cons_zero, refCount]
      omega
    | succ n =>
      simp only [List.set_cons_succ, List.getD_cons_succ, refCount]
      have hih := ih n (by simpa using h)
      omega

theorem refCount_eq_zero (l : List BinderSt) (a : Nat)
    (h : ∀ hb ∈ l, hb.data ≠ some a) : refCount l a = 0 := by
  induction l with
  | nil => rfl
  | cons x xs ih =>
    simp only [refCount]
    rw [if_neg (h x (List.mem_cons_self _ _)), ih (fun hb hm => h hb (List.mem_cons_of_mem _ hm))]

theorem useCount_eq_zero_of_ge {w : World K V} (hwf : WF w) {a : Nat}
    (ha : w.heap.length ≤ a) : w.useCount a = 0 := by
  rw [World.useCount]
  apply refCount_eq_zero
  intro hb hm hda
  exact Nat.not_lt.mpr ha ((WF_iff w).mp hwf hb hm a hda)

theorem refCount_pos (l : List BinderSt) (i : Nat) (a : Nat) (h : i < l.length)
    (hd : (l.getD i ⟨none, false⟩).data = some a) : 1 ≤ refCount l a := by
  induction l generalizing i with
  | nil => simp at h
  | cons y ys ih =>
    cases i with
    | zero =>
      simp only [List.getD_cons_zero] at hd
      simp [refCount, hd]
    | succ n =>
      simp only [List.getD_cons_succ] at hd
      have hih := ih n (by simpa using h) hd
      simp only [refCount]
      omega

/-! ### Operation effect lemmas -/

theorem insert_front_some_ok {o1 o2 o3 o4 : Bool} {w w' : World K V} {i a : Nat} {k : K} {v : V}
    (hwf : WF w) (hd : (w.h i).data = some a)
    (h : insert_front o1 o2 o3 o4 w i k v = (w', none)) :
    k ∉ (w.snap a).keys
    ∧ w'.toList i = (k, v) :: (w.snap a).notes
    ∧ (w'.h i).unsharable = false
    ∧ w'.handles.length = w.handles.length
    ∧ (∀ j, j ≠ i → w'.h j = w.h j)
    ∧ (if 1 < w.useCount a
        then (w'.h i).data = some w.heap.length ∧ ∀ b, b < w.heap.length → w'.snap b = w.snap b
        else (w'.h i).data = some a ∧ ∀ b, b < w.heap.length → b ≠ a → w'.snap b = w.snap b)
    ∧ WF w' := by
  rw [insert_front] at h
  simp only [hd] at h
  by_cases hk : k ∈ (w.snap a).keys
  · rw [if_pos hk] at h
    simp at h
  · rw [if_neg hk] at h
    cases hge : goEdit o2 w a with
    | none =>
      rw [hge] at h
      simp at h
    | some res =>
      obtain ⟨w2, t, c⟩ := res
      rw [hge] at h
      cases o34 : (o3 && o4) with
      | false =>
        rw [o34] at h
        simp at h
      | true =>
        rw [o34] at h
        simp only [if_pos, Prod.mk.injEq] at h
        obtain ⟨hw', _⟩ := h
        subst hw'
        obtain ⟨hh, hst, hpres, hlen, hlt, hct, hcf⟩ := goEdit_spec hge
        obtain ⟨chi, ctl, chj, clen, cct, ccf, cwf⟩ :=
          commit_spec (b := false) (s := ⟨(k, v) :: (w2.snap t).notes⟩) hwf hd hge
        refine ⟨hk, ?_, ?_, clen, chj, ?_, cwf⟩
        · rw [ctl]
          rw [show (⟨(k, v) :: (w2.snap t).notes⟩ : Snapshot K V).notes
              = (k, v) :: (w2.snap t).notes from rfl, hst]
        · rw [chi]
        · cases c with
          | true =>
            rw [if_pos (hct rfl).2.2]
            obtain ⟨c1, c2⟩ := cct rfl
            exact ⟨by rw [c1], c2⟩
          | false =>
            rw [if_neg (Nat.not_lt.mpr (hcf rfl).2.2)]
            obtain ⟨c1, c2⟩ := ccf rfl
            exact ⟨by rw [c1], c2⟩

theorem lazyAlloc_h_self {w : World K V} {i : Nat} (hi : i < w.handles.length) :
    (lazyAlloc w i).h i = ⟨some w.heap.length, (w.h i).unsharable⟩ :=
  getD_set_self _ _ _ _ hi

theorem lazyAlloc_wf {w : World K V} (i : Nat) (hwf : WF w) : WF (lazyAlloc w i) :=
  wf_update (w.heap ++ [⟨[]⟩]) i _ hwf (by simp)
    (by intro x hx; cases hx; simp)

theorem lazyAlloc_useCount {w : World K V} {i : Nat} (hi : i < w.handles.length)
    (hd : (w.h i).data = none) (hwf : WF w) :
    (lazyAlloc w i).useCount w.heap.length = 1 := by
  have hset := refCount_set w.handles i ⟨some w.heap.length, (w.h i).unsharable⟩
    w.heap.length hi
  have hz : refCount w.handles w.heap.length = 0 :=
    useCount_eq_zero_of_ge hwf (Nat.le_refl _)
  rw [show w.handles.getD i ⟨none, false⟩ = w.h i from rfl, hd] at hset
  simp only [World.useCount, lazyAlloc]
  simp at hset
  omega

theorem insert_front_none_ok {o1 o2 o3 o4 : Bool} {w w' : World K V} {i : Nat} {k : K} {v : V}
    (hwf : WF w) (hi : i < w.handles.length) (hd : (w.h i).data = none)
    (h : insert_front o1 o2 o3 o4 w i k v = (w', none)) :
    w'.toList i = [(k, v)]
    ∧ w'.h i = ⟨some w.heap.length, false⟩
    ∧ w'.handles.length = w.handles.length
    ∧ (∀ j, j ≠ i → w'.h j = w.h j)
    ∧ (∀ b, b < w.heap.length → w'.snap b = w.snap b)
    ∧ WF w' := by
  have hw1 : WF (lazyAlloc w i) := lazyAlloc_wf i hwf
  have hd1 : ((lazyAlloc w i).h i).data = some w.heap.length := by
    rw [lazyAlloc_h_self hi]
  have hge : goEdit o2 (lazyAlloc w i) w.heap.length
      = some (lazyAlloc w i, w.heap.length, false) := by
    rw [goEdit, if_neg]
    rw [lazyAlloc_useCount hi hd hwf]
    omega
  rw [insert_front] at h
  simp only [hd] at h
  cases o1 with
  | false => simp at h
  | true =>
    rw [hge] at h
    cases o34 : (o3 && o4) with
    | false =>
      rw [o34] at h
      simp at h
    | true =>
      rw [o34] at h
      simp only [if_pos, Prod.mk.injEq] at h
      obtain ⟨hw', _⟩ := h
      subst hw'
      obtain ⟨chi, ctl, chj, clen, _, ccf, cwf⟩ :=
        commit_spec (b := false) (s := ⟨(k, v) :: ((lazyAlloc w i).snap w.heap.length).notes⟩)
          hw1 hd1 hge
      have hempty : (lazyAlloc w i).snap w.heap.length = (⟨[]⟩ : Snapshot K V) :=
        getD_append_len _ _ _
      refine ⟨?_, chi, ?_, ?_, ?_, cwf⟩
      · rw [ctl, hempty]
      · rw [clen]
        show (w.handles.set i _).length = _
        rw [List.length_set]
      · intro j hj
        rw [chj j hj]
        exact getD_set_ne _ _ _ _ _ (fun hij => hj hij.symm)
      · intro b hb
        obtain ⟨_, cpres⟩ := ccf rfl
        rw [cpres b (by simp [lazyAlloc]; omega) (Nat.ne_of_lt hb)]
        exact getD_append_lt _ _ _ _ hb

theorem insert_after_ok {o2 o3 o4 : Bool} {w w' : World K V} {i a : Nat} {pk k : K} {v : V}
    (hwf : WF w) (hd : (w.h i).data = some a)
    (h : insert_after o2 o3 o4 w i pk k v = (w', none)) :
    pk ∈ (w.snap a).keys
    ∧ k ∉ (w.snap a).keys
    ∧ w'.toList i
        = listInsertAt ((w.snap a).notes.findIdx (fun e => decide (e.1 = pk)) + 1)
            (k, v) (w.snap a).notes
    ∧ (w'.h i).unsharable = false
    ∧ w'.handles.length = w.handles.length
    ∧ (∀ j, j ≠ i → w'.h j = w.h j)
    ∧ (if 1 < w.useCount a
        then (w'.h i).data = some w.heap.length ∧ ∀ b, b < w.heap.length → w'.snap b = w.snap b
        else (w'.h i).data = some a ∧ ∀ b, b < w.heap.length → b ≠ a → w'.snap b = w.snap b)
    ∧ WF w' := by
  rw [insert_after] at h
  simp only [hd] at h
  by_cases hpk : pk ∈ (w.snap a).keys
  case neg =>
    rw [if_pos hpk] at h
    simp at h
  case pos =>
    rw [if_neg (by simp [hpk])] at h
    by_cases hk : k ∈ (w.snap a).keys
    · rw [if_pos hk] at h
      simp at h
    · rw [if_neg hk] at h
      cases hge : goEdit o2 w a with
      | none =>
        rw [hge] at h
        simp at h
      | some res =>
        obtain ⟨w2, t, c⟩ := res
        rw [hge] at h
        cases o34 : (o3 && o4) with
        | false =>
          rw [o34] at h
          simp at h
        | true =>
          rw [o34] at h
          simp only [if_pos, Prod.mk.injEq] at h
          obtain ⟨hw', _⟩ := h
          subst hw'
          obtain ⟨hh, hst, hpres, hlen, hlt, hct, hcf⟩ := goEdit_spec hge
          obtain ⟨chi, ctl, chj, clen, cct, ccf, cwf⟩ :=
            commit_spec (b := false)
              (s := ⟨listInsertAt ((w2.snap t).notes.findIdx (fun e => decide (e.1 = pk)) + 1)
                (k, v) (w2.snap t).notes⟩) hwf hd hge
          refine ⟨hpk, hk, ?_, ?_, clen, chj, ?_, cwf⟩
          · rw [ctl]
            show listInsertAt ((w2.snap t).notes.findIdx _ + 1) (k, v) (w2.snap t).notes = _
            rw [hst]
          · rw [chi]
          · cases c with
            | true =>
              rw [if_pos (hct rfl).2.2]
              obtain ⟨c1, c2⟩ := cct rfl
              exact ⟨by rw [c1], c2⟩
            | false =>
              rw [if_neg (Nat.not_lt.mpr (hcf rfl).2.2)]
              obtain ⟨c1, c2⟩ := ccf rfl
              exact ⟨by rw [c1], c2⟩

theorem remove_key_ok {o2 : Bool} {w w' : World K V} {i a : Nat} {k : K}
    (hwf : WF w) (hd : (w.h i).data = some a)
    (h : remove_key o2 w i k = (w', none)) :
    k ∈ (w.snap a).keys
    ∧ w'.toList i = (w.snap a).notes.eraseP (fun e => decide (e.1 = k))
    ∧ (w'.h i).unsharable = false
    ∧ w'.handles.length = w.handles.length
    ∧ (∀ j, j ≠ i → w'.h j = w.h j)
    ∧ (if 1 < w.useCount a
        then (w'.h i).data = some w.heap.length ∧ ∀ b, b < w.heap.length → w'.snap b = w.snap b
        else (w'.h i).data = some a ∧ ∀ b, b < w.heap.length → b ≠ a → w'.snap b = w.snap b)
    ∧ WF w' := by
  rw [remove_key] at h
  simp only [hd] at h
  by_cases hk : k ∈ (w.snap a).keys
  case neg =>
    rw [if_pos hk] at h
    simp at h
  case pos =>
    rw [if_neg (by simp [hk])] at h
    cases hge : goEdit o2 w a with
    | none =>
      rw [hge] at h
      simp at h
    | some res =>
      obtain ⟨w2, t, c⟩ := res
      rw [hge] at h
      simp only [Prod.mk.injEq] at h
      obtain ⟨hw', _⟩ := h
      subst hw'
      obtain ⟨hh, hst, hpres, hlen, hlt, hct, hcf⟩ := goEdit_spec hge
      obtain ⟨chi, ctl, chj, clen, cct, ccf, cwf⟩ :=
        commit_spec (b := false)
          (s := ⟨(w2.snap t).notes.eraseP (fun e => decide (e.1 = k))⟩) hwf hd hge
      refine ⟨hk, ?_, ?_, clen, chj, ?_, cwf⟩
      · rw [ctl]
        show (w2.snap t).notes.eraseP _ = _
        rw [hst]
      · rw [chi]
      · cases c with
        | true =>
          rw [if_pos (hct rfl).2.2]
          obtain ⟨c1, c2⟩ := cct rfl
          exact ⟨by rw [c1], c2⟩
        | false =>
          rw [if_neg (Nat.not_lt.mpr (hcf rfl).2.2)]
          obtain ⟨c1, c2⟩ := ccf rfl
          exact ⟨by rw [c1], c2⟩

theorem read_mut_ok {o2 : Bool} {w w' : World K V} {i a : Nat} {k : K}
    (hwf : WF w) (hd : (w.h i).data = some a)
    (h : read_mut o2 w i k = (w', none)) :
    k ∈ (w.snap a).keys
    ∧ w'.toList i = (w.snap a).notes
    ∧ (w'.h i).unsharable = true
    ∧ w'.handles.length = w.handles.length
    ∧ (∀ j, j ≠ i → w'.h j = w.h j)
    ∧ (if 1 < w.useCount a
        then (w'.h i).data = some w.heap.length ∧ ∀ b, b < w.heap.length → w'.snap b = w.snap b
        else (w'.h i).data = some a ∧ ∀ b, b < w.heap.length → b ≠ a → w'.snap b = w.snap b)
    ∧ WF w' := by
  rw [read_mut] at h
  simp only [hd] at h
  by_cases hk : k ∈ (w.snap a).keys
  case neg =>
    rw [if_pos hk] at h
    simp at h
  case pos =>
    rw [if_neg (by simp [hk])] at h
    cases hge : goEdit o2 w a with
    | none =>
      rw [hge] at h
      simp at h
    | some res =>
      obtain ⟨w2, t, c⟩ := res
      rw [hge] at h
      simp only [Prod.mk.injEq] at h
      obtain ⟨hw', _⟩ := h
      subst hw'
      obtain ⟨hh, hst, hpres, hlen, hlt, hct, hcf⟩ := goEdit_spec hge
      have hi : i < w.handles.length := data_some_lt_length hd
      have ha : a < w.heap.length := wf_h hwf hd
      have hi2 : i < w2.handles.length := by rw [hh]; exact hi
      have hhi : ((w2.setH i ⟨some t, true⟩).h i) = ⟨some t, true⟩ := h_setH_self _ _ _ hi2
      have htl : (w2.setH i ⟨some t, true⟩).toList i = (w.snap a).notes := by
        rw [World.toList, hhi]
        show ((w2.setH i ⟨some t, true⟩).snap t).notes = (w.snap a).notes
        rw [show (w2.setH i ⟨some t, true⟩).snap t = w2.snap t from rfl, hst]
      refine ⟨hk, htl, by rw [hhi], ?_, ?_, ?_, ?_⟩
      · show (w2.handles.set i _).length = _
        rw [List.length_set, hh]
      · intro j hj
        rw [h_setH_ne _ _ _ _ (fun hij => hj hij.symm)]
        show w2.handles.getD j _ = _
        rw [hh]
        rfl
      · cases c with
        | true =>
          rw [if_pos (hct rfl).2.2]
          obtain ⟨ht, hheap, _⟩ := hct rfl
          constructor
          · rw [hhi, ht]
          · intro b hb
            show w2.snap b = w.snap b
            exact hpres b hb (by rw [ht]; exact Nat.ne_of_lt hb)
        | false =>
          rw [if_neg (Nat.not_lt.mpr (hcf rfl).2.2)]
          obtain ⟨hww, hta, _⟩ := hcf rfl
          constructor
          · rw [hhi, hta]
          · intro b hb hba
            show w2.snap b = w.snap b
            rw [hww]
      · show WF (⟨w2.heap, w2.handles.set i _⟩ : World K V)
        have hw2 : WF w2 := by
          cases c with
          | true =>
            obtain ⟨_, hheap, _⟩ := hct rfl
            have hwx := wf_extend (w := w) (w.heap ++ [w.snap a]) hwf (by simp)
            rw [show (⟨w.heap ++ [w.snap a], w.handles⟩ : World K V) = w2 from ?_] at hwx
            · exact hwx
            · cases w2 with
              | mk hp hs =>
                simp only [World.mk.injEq]
                simp only at hheap hh
                exact ⟨hheap.symm, hh.symm⟩
          | false =>
            obtain ⟨hww, _, _⟩ := hcf rfl
            rw [hww]
            exact hwf
        exact wf_update (w := w2) w2.heap i ⟨some t, true⟩ hw2 (Nat.le_refl _)
          (by intro x hx; cases hx; exact hlt ha)

/-! ### Failure leaves the state unchanged (up to the lazy allocation) -/

theorem insert_front_fail {o1 o2 o3 o4 : Bool} {w w' : World K V} {i : Nat} {k : K} {v : V}
    {e : BErr} (h : insert_front o1 o2 o3 o4 w i k v = (w', some e)) :
    w' = w ∨ ((w.h i).data = none ∧ w' = lazyAlloc w i) := by
  rw [insert_front] at h
  cases hd : (w.h i).data with
  | some a =>
    simp only [hd] at h
    left
    by_cases hk : k ∈ (w.snap a).keys
    · rw [if_pos hk] at h
      simp only [Prod.mk.injEq] at h
      exact h.1.symm
    · rw [if_neg hk] at h
      cases hge : goEdit o2 w a with
      | none =>
        rw [hge] at h
        simp only [Prod.mk.injEq] at h
        exact h.1.symm
      | some res =>
        obtain ⟨w2, t, c⟩ := res
        rw [hge] at h
        cases o34 : (o3 && o4) with
        | false =>
          rw [o34] at h
          simp only [Bool.false_eq_true, if_false, Prod.mk.injEq] at h
          exact h.1.symm
        | true =>
          rw [o34] at h
          simp at h
  | none =>
    simp only [hd] at h
    cases o1 with
    | false =>
      simp only [Bool.false_eq_true, if_false, Prod.mk.injEq] at h
      exact Or.inl h.1.symm
    | true =>
      simp only [if_pos] at h
      cases hge : goEdit o2 (lazyAlloc w i) w.heap.length with
      | none =>
        rw [hge] at h
        simp only [Prod.mk.injEq] at h
        exact Or.inr ⟨rfl, h.1.symm⟩
      | some res =>
        obtain ⟨w2, t, c⟩ := res
        rw [hge] at h
        cases o34 : (o3 && o4) with
        | false =>
          rw [o34] at h
          simp only [Bool.false_eq_true, if_false, Prod.mk.injEq] at h
          exact Or.inr ⟨rfl, h.1.symm⟩
        | true =>
          rw [o34] at h
          simp at h

theorem insert_after_fail {o2 o3 o4 : Bool} {w w' : World K V} {i : Nat} {pk k : K} {v : V}
    {e : BErr} (h : insert_after o2 o3 o4 w i pk k v = (w', some e)) : w' = w := by
  rw [insert_after] at h
  cases hd : (w.h i).data with
  | none =>
    simp only [hd, Prod.mk.injEq] at h
    exact h.1.symm
  | some a =>
    simp only [hd] at h
    by_cases hpk : pk ∈ (w.snap a).keys
    case neg =>
      rw [if_pos hpk] at h
      simp only [Prod.mk.injEq] at h
      exact h.1.symm
    case pos =>
      rw [if_neg (by simp [hpk])] at h
      by_cases hk : k ∈ (w.snap a).keys
      · rw [if_pos hk] at h
        simp only [Prod.mk.injEq] at h
        exact h.1.symm
      · rw [if_neg hk] at h
        cases hge : goEdit o2 w a with
        | none =>
          rw [hge] at h
          simp only [Prod.mk.injEq] at h
          exact h.1.symm
        | some res =>
          obtain ⟨w2, t, c⟩ := res
          rw [hge] at h
          cases o34 : (o3 && o4) with
          | false =>
            rw [o34] at h
            simp only [Bool.false_eq_true, if_false, Prod.mk.injEq] at h
            exact h.1.symm
          | true =>
            rw [o34] at h
            simp at h

theorem remove_key_fail {o2 : Bool} {w w' : World K V} {i : Nat} {k : K}
    {e : BErr} (h : remove_key o2 w i k = (w', some e)) : w' = w := by
  rw [remove_key] at h
  cases hd : (w.h i).data with
  | none =>
    simp only [hd, Prod.mk.injEq] at h
    exact h.1.symm
  | some a =>
    simp only [hd] at h
    by_cases hk : k ∈ (w.snap a).keys
    case neg =>
      rw [if_pos hk] at h
      simp only [Prod.mk.injEq] at h
      exact h.1.symm
    case pos =>
      rw [if_neg (by simp [hk])] at h
      cases hge : goEdit o2 w a with
      | none =>
        rw [hge] at h
        simp only [Prod.mk.injEq] at h
        exact h.1.symm
      | some res =>
        obtain ⟨w2, t, c⟩ := res
        rw [hge] at h
        simp at h

theorem remove_front_fail {o2 : Bool} {w w' : World K V} {i : Nat}
    {e : BErr} (h : remove_front o2 w i = (w', some e)) : w' = w := by
  rw [remove_front] at h
  cases hd : (w.h i).data with
  | none =>
    simp only [hd, Prod.mk.injEq] at h
    exact h.1.symm
  | some a =>
    simp only [hd] at h
    cases hn : (w.snap a).notes with
    | nil =>
      rw [hn] at h
      simp only [Prod.mk.injEq] at h
      exact h.1.symm
    | cons x rest =>
      rw [hn] at h
      exact remove_key_fail h

theorem read_mut_fail {o2 : Bool} {w w' : World K V} {i : Nat} {k : K}
    {e : BErr} (h : read_mut o2 w i k = (w', some e)) : w' = w := by
  rw [read_mut] at h
  cases hd : (w.h i).data with
  | none =>
    simp only [hd, Prod.mk.injEq] at h
    exact h.1.symm
  | some a =>
    simp only [hd] at h
    by_cases hk : k ∈ (w.snap a).keys
    case neg =>
      rw [if_pos hk] at h
      simp only [Prod.mk.injEq] at h
      exact h.1.symm
    case pos =>
      rw [if_neg (by simp [hk])] at h
      cases hge : goEdit o2 w a with
      | none =>
        rw [hge] at h
        simp only [Prod.mk.injEq] at h
        exact h.1.symm
      | some res =>
        obtain ⟨w2, t, c⟩ := res
        rw [hge] at h
        simp at h

theorem lazyAlloc_preserves {w : World K V} {i : Nat} (hwf : WF w) (hd : (w.h i).data = none) :
    ∀ j, (lazyAlloc w i).toList j = w.toList j
      ∧ ((lazyAlloc w i).h j).unsharable = (w.h j).unsharable := by
  intro j
  by_cases hij : j = i
  · subst hij
    by_cases hj : j < w.handles.length
    · have hja := lazyAlloc_h_self hj
      constructor
      · rw [World.toList, World.toList, hd, hja]
        show ((lazyAlloc w j).snap w.heap.length).notes = []
        rw [show (lazyAlloc w j).snap w.heap.length
            = (w.heap ++ [(⟨[]⟩ : Snapshot K V)]).getD w.heap.length ⟨[]⟩ from rfl]
        rw [getD_append_len]
      · rw [hja]
    · have e1 : (lazyAlloc w j).h j = ⟨none, false⟩ := by
        show (w.handles.set j _).getD j _ = _
        exact List.getD_eq_default _ _ (by rw [List.length_set]; exact Nat.le_of_not_lt hj)
      have e2 : w.h j = ⟨none, false⟩ :=
        List.getD_eq_default _ _ (Nat.le_of_not_lt hj)
      rw [World.toList, World.toList, e1, e2]
      exact ⟨rfl, rfl⟩
  · have hj : (lazyAlloc w i).h j = w.h j :=
      getD_set_ne _ _ _ _ _ (fun hji => hij hji.symm)
    constructor
    · rw [World.toList, World.toList, hj]
      cases hdj : (w.h j).data with
      | none => rfl
      | some b =>
        show ((lazyAlloc w i).snap b).notes = (w.snap b).notes
        rw [show (lazyAlloc w i).snap b
            = (w.heap ++ [(⟨[]⟩ : Snapshot K V)]).getD b ⟨[]⟩ from rfl]
        rw [getD_append_lt _ _ _ _ (wf_h hwf hdj)]
        rfl
    · rw [hj]

/-- C1 (amended): if a mutating operation (insert_front, insert_after,
remove, remove(k), mutable read) fails, the whole state is exactly as
before — in particular any cloned target has been discarded — except
that an `insert_front` that fails on an empty (no-snapshot) handle after
its lazy allocation leaves the handle referencing a fresh empty
snapshot.  In every case the handle-visible data — iteration sequence,
unshareable flag, and size — of every handle is unchanged. -/
theorem C1_amended {w w' : World K V} {a : Act K V} {e : BErr}
    (hm : MutAct a) (hwf : WF w) (hstep : step w a = (w', some e)) :
    (w' = w ∨ ((w.h (actIdx a)).data = none ∧ w' = lazyAlloc w (actIdx a)))
    ∧ (∀ j, w'.toList j = w.toList j
        ∧ (w'.h j).unsharable = (w.h j).unsharable
        ∧ w'.size j = w.size j) := by
  have hmain : w' = w ∨ ((w.h (actIdx a)).data = none ∧ w' = lazyAlloc w (actIdx a)) := by
    cases a with
    | insertFront o1 o2 o3 o4 i k v => exact insert_front_fail hstep
    | insertAfter o2 o3 o4 i pk k v => exact Or.inl (insert_after_fail hstep)
    | removeFront o2 i => exact Or.inl (remove_front_fail hstep)
    | removeKey o2 i k => exact Or.inl (remove_key_fail hstep)
    | readMut o2 i k => exact Or.inl (read_mut_fail hstep)
    | defaultCtor => exact False.elim hm
    | copyCtor oc src => exact False.elim hm
    | moveCtor src => exact False.elim hm
    | copyAssign oc dst src => exact False.elim hm
    | moveAssign dst src => exact False.elim hm
    | readConst i k => exact False.elim hm
    | sizeQuery i => exact False.elim hm
    | clearOp i => exact False.elim hm
  refine ⟨hmain, ?_⟩
  rcases hmain with rfl | ⟨hd, rfl⟩
  · exact fun j => ⟨rfl, rfl, rfl⟩
  · intro j
    obtain ⟨h1, h2⟩ := lazyAlloc_preserves hwf hd j
    refine ⟨h1, h2, ?_⟩
    rw [size_eq_toList_length, size_eq_toList_length, h1]

/-- Closed instance of `C1_amended`: the failing `insert_front` of
`C1_cex`, with every hypothesis discharged on the concrete state. -/
theorem C1_witness :
    ((step wA (Act.insertFront true true false true 0 1 "a")).1 = wA
      ∨ ((wA.h (actIdx (Act.insertFront true true false true 0 1 "a"))).data = none
         ∧ (step wA (Act.insertFront true true false true 0 1 "a")).1
             = lazyAlloc wA (actIdx (Act.insertFront true true false true 0 1 "a"))))
    ∧ (∀ j, (step wA (Act.insertFront true true false true 0 1 "a")).1.toList j = wA.toList j
        ∧ ((step wA (Act.insertFront true true false true 0 1 "a")).1.h j).unsharable
            = (wA.h j).unsharable
        ∧ (step wA (Act.insertFront true true false true 0 1 "a")).1.size j = wA.size j) :=
  C1_amended (a := Act.insertFront true true false true 0 1 "a") (e := BErr.badAlloc)
    trivial (by show WFb wA = true; decide) (by decide)

/-- C2 (amended): a successful mutating operation deep-clones the
snapshot exactly when it is shared by more than one handle (use count
above one): then the handle moves to a fresh address and every
previously allocated snapshot — in particular the original — is left
unchanged.  When the handle is the sole owner the operation mutates the
snapshot in place (same address), regardless of the unshareable flag;
the flag forces a clone only at copy-construction time. -/
theorem C2_amended {w : World K V} {a : Act K V} {ad : Nat}
    (hm : MutAct a) (hwf : WF w) (hd : (w.h (actIdx a)).data = some ad)
    (hs : (step w a).2 = none) :
    if 1 < w.useCount ad then
      ((step w a).1.h (actIdx a)).data = some w.heap.length
      ∧ ad ≠ w.heap.length
      ∧ ∀ b, b < w.heap.length → (step w a).1.snap b = w.snap b
    else
      ((step w a).1.h (actIdx a)).data = some ad
      ∧ ∀ b, b < w.heap.length → b ≠ ad → (step w a).1.snap b = w.snap b := by
  have hadlt : ad < w.heap.length := wf_h hwf hd
  cases a with
  | insertFront o1 o2 o3 o4 i k v =>
    simp only [actIdx] at hd ⊢
    cases hsp : insert_front o1 o2 o3 o4 w i k v with
    | mk w' e2 =>
      have hstep2 : step w (Act.insertFront o1 o2 o3 o4 i k v) = (w', e2) := hsp
      rw [hstep2] at hs ⊢
      replace hs : e2 = none := hs
      subst hs
      obtain ⟨_, _, _, _, _, hif, _⟩ := insert_front_some_ok hwf hd hsp
      by_cases hc : 1 < w.useCount ad
      · rw [if_pos hc] at hif ⊢
        exact ⟨hif.1, Nat.ne_of_lt hadlt, hif.2⟩
      · rw [if_neg hc] at hif ⊢
        exact hif
  | insertAfter o2 o3 o4 i pk k v =>
    simp only [actIdx] at hd ⊢
    cases hsp : insert_after o2 o3 o4 w i pk k v with
    | mk w' e2 =>
      have hstep2 : step w (Act.insertAfter o2 o3 o4 i pk k v) = (w', e2) := hsp
      rw [hstep2] at hs ⊢
      replace hs : e2 = none := hs
      subst hs
      obtain ⟨_, _, _, _, _, _, hif, _⟩ := insert_after_ok hwf hd hsp
      by_cases hc : 1 < w.useCount ad
      · rw [if_pos hc] at hif ⊢
        exact ⟨hif.1, Nat.ne_of_lt hadlt, hif.2⟩
      · rw [if_neg hc] at hif ⊢
        exact hif
  | removeFront o2 i =>
    simp only [actIdx] at hd ⊢
    cases hsp : remove_front o2 w i with
    | mk w' e2 =>
      have hstep2 : step w (Act.removeFront o2 i) = (w', e2) := hsp
      rw [hstep2] at hs ⊢
      replace hs : e2 = none := hs
      subst hs
      rw [remove_front] at hsp
      simp only [hd] at hsp
      cases hn : (w.snap ad).notes with
      | nil =>
        rw [hn] at hsp
        simp at hsp
      | cons x rest =>
        rw [hn] at hsp
        obtain ⟨_, _, _, _, _, hif, _⟩ := remove_key_ok hwf hd hsp
        by_cases hc : 1 < w.useCount ad
        · rw [if_pos hc] at hif ⊢
          exact ⟨hif.1, Nat.ne_of_lt hadlt, hif.2⟩
        · rw [if_neg hc] at hif ⊢
          exact hif
  | removeKey o2 i k =>
    simp only [actIdx] at hd ⊢
    cases hsp : remove_key o2 w i k with
    | mk w' e2 =>
      have hstep2 : step w (Act.removeKey o2 i k) = (w', e2) := hsp
      rw [hstep2] at hs ⊢
      replace hs : e2 = none := hs
      subst hs
      obtain ⟨_, _, _, _, _, hif, _⟩ := remove_key_ok hwf hd hsp
      by_cases hc : 1 < w.useCount ad
      · rw [if_pos hc] at hif ⊢
        exact ⟨hif.1, Nat.ne_of_lt hadlt, hif.2⟩
      · rw [if_neg hc] at hif ⊢
        exact hif
  | readMut o2 i k =>
    simp only [actIdx] at hd ⊢
    cases hsp : read_mut o2 w i k with
    | mk w' e2 =>
      have hstep2 : step w (Act.readMut o2 i k) = (w', e2) := hsp
      rw [hstep2] at hs ⊢
      replace hs : e2 = none := hs
      subst hs
      obtain ⟨_, _, _, _, _, hif, _⟩ := read_mut_ok hwf hd hsp
      by_cases hc : 1 < w.useCount ad
      · rw [if_pos hc] at hif ⊢
        exact ⟨hif.1, Nat.ne_of_lt hadlt, hif.2⟩
      · rw [if_neg hc] at hif ⊢
        exact hif
  | defaultCtor => exact False.elim hm
  | copyCtor oc src => exact False.elim hm
  | moveCtor src => exact False.elim hm
  | copyAssign oc dst src => exact False.elim hm
  | moveAssign dst src => exact False.elim hm
  | readConst i k => exact False.elim hm
  | sizeQuery i => exact False.elim hm
  | clearOp i => exact False.elim hm

/-- Closed instance of `C2_amended`: removing a key on the shared-state
world `wShare` clones (shared branch of the copy-on-write decision). -/
theorem C2_witness :
    if 1 < wShare.useCount 0 then
      ((step wShare (Act.removeKey true 0 1)).1.h 0).data = some wShare.heap.length
      ∧ 0 ≠ wShare.heap.length
      ∧ ∀ b, b < wShare.heap.length →
          (step wShare (Act.removeKey true 0 1)).1.snap b = wShare.snap b
    else
      ((step wShare (Act.removeKey true 0 1)).1.h 0).data = some 0
      ∧ ∀ b, b < wShare.heap.length → b ≠ 0 →
          (step wShare (Act.removeKey true 0 1)).1.snap b = wShare.snap b :=
  C2_amended (a := Act.removeKey true 0 1) trivial (by show WFb wShare = true; decide)
    (by decide) (by decide)

/-- C3: after a successful mutable `read(k)` on handle `i`,
copy-constructing a new handle from `i` produces a handle (at index
`w1.handles.length`) whose storage is an independent deep clone: its
address differs from the source's, its contents equal the source's
contents at copy time, and a later write through the escaped reference
(an in-place update of the source's snapshot) is not observable through
the copy. -/
theorem C3_read_then_copy {w w1 w2 : World K V} {i : Nat} {k : K} {v2 : V} {o2 oc : Bool}
    (hwf : WF w) (hr : read_mut o2 w i k = (w1, none))
    (hc : copy_ctor oc w1 i = (w2, none)) :
    (w2.h w1.handles.length).data ≠ (w2.h i).data
    ∧ w2.toList w1.handles.length = w2.toList i
    ∧ (write_through w2 i k v2).toList w1.handles.length = w2.toList w1.handles.length := by
  cases hd : (w.h i).data with
  | none =>
    rw [read_mut, hd] at hr
    simp at hr
  | some a =>
    obtain ⟨_, _, hflag, _, _, hif, hwf1⟩ := read_mut_ok hwf hd hr
    have hdata1 : ∃ t, (w1.h i).data = some t := by
      by_cases hcnt : 1 < w.useCount a
      · rw [if_pos hcnt] at hif
        exact ⟨_, hif.1⟩
      · rw [if_neg hcnt] at hif
        exact ⟨_, hif.1⟩
    obtain ⟨t, hdt⟩ := hdata1
    have hi1 : i < w1.handles.length := data_some_lt_length hdt
    have htlt : t < w1.heap.length := wf_h hwf1 hdt
    rw [copy_ctor, hdt, hflag] at hc
    cases oc with
    | false => simp at hc
    | true =>
      simp only [if_pos, Prod.mk.injEq] at hc
      obtain ⟨hw2, _⟩ := hc
      subst hw2
      have hhj : (⟨w1.heap ++ [w1.snap t], w1.handles ++ [⟨some w1.heap.length, false⟩]⟩
          : World K V).h w1.handles.length = ⟨some w1.heap.length, false⟩ :=
        getD_append_len _ _ _
      have hhi : (⟨w1.heap ++ [w1.snap t], w1.handles ++ [⟨some w1.heap.length, false⟩]⟩
          : World K V).h i = w1.h i :=
        getD_append_lt _ _ _ _ hi1
      have hsnapj : (⟨w1.heap ++ [w1.snap t], w1.handles ++ [⟨some w1.heap.length, false⟩]⟩
          : World K V).snap w1.heap.length = w1.snap t :=
        getD_append_len _ _ _
      have hsnapt : (⟨w1.heap ++ [w1.snap t], w1.handles ++ [⟨some w1.heap.length, false⟩]⟩
          : World K V).snap t = w1.snap t :=
        getD_append_lt _ _ _ _ htlt
      have e1 : (⟨w1.heap ++ [w1.snap t], w1.handles ++ [⟨some w1.heap.length, false⟩]⟩
          : World K V).toList w1.handles.length = (w1.snap t).notes := by
        rw [World.toList, hhj]
        exact congrArg Snapshot.notes hsnapj
      have e2 : (⟨w1.heap ++ [w1.snap t], w1.handles ++ [⟨some w1.heap.length, false⟩]⟩
          : World K V).toList i = (w1.snap t).notes := by
        rw [World.toList, hhi, hdt]
        exact congrArg Snapshot.notes hsnapt
      refine ⟨?_, ?_, ?_⟩
      · rw [hhj, hhi, hdt]
        simp only [ne_eq, Option.some.injEq]
        exact fun hx => Nat.ne_of_lt htlt hx.symm
      · rw [e1, e2]
      · have ew : write_through
            (⟨w1.heap ++ [w1.snap t], w1.handles ++ [⟨some w1.heap.length, false⟩]⟩
              : World K V) i k v2
            = (⟨w1.heap ++ [w1.snap t], w1.handles ++ [⟨some w1.heap.length, false⟩]⟩
                : World K V).setSnap t
                ⟨((⟨w1.heap ++ [w1.snap t], w1.handles ++ [⟨some w1.heap.length, false⟩]⟩
                    : World K V).snap t).notes.map
                  (fun e => if e.1 = k then (e.1, v2) else e)⟩ := by
          rw [write_through, hhi, hdt]
        rw [ew, e1]
        have e3 : ((⟨w1.heap ++ [w1.snap t], w1.handles ++ [⟨some w1.heap.length, false⟩]⟩
            : World K V).setSnap t
              ⟨((⟨w1.heap ++ [w1.snap t], w1.handles ++ [⟨some w1.heap.length, false⟩]⟩
                  : World K V).snap t).notes.map
                (fun e => if e.1 = k then (e.1, v2) else e)⟩).h w1.handles.length
            = (⟨some w1.heap.length, false⟩ : BinderSt) := hhj
        rw [World.toList, e3]
        have e4 : ((⟨w1.heap ++ [w1.snap t], w1.handles ++ [⟨some w1.heap.length, false⟩]⟩
            : World K V).setSnap t
              ⟨((⟨w1.heap ++ [w1.snap t], w1.handles ++ [⟨some w1.heap.length, false⟩]⟩
                  : World K V).snap t).notes.map
                (fun e => if e.1 = k then (e.1, v2) else e)⟩).snap w1.heap.length
            = w1.snap t :=
          (snap_setSnap_ne _ _ _ _ (Nat.ne_of_lt htlt)).trans hsnapj
        exact congrArg Snapshot.notes e4

/-- Closed instance of `C3_read_then_copy`: the scenario world — mutable
`read(3)` on `wD`, then the copy that builds `wF`. -/
theorem C3_witness :
    (wF.h wE.handles.length).data ≠ (wF.h 0).data
    ∧ wF.toList wE.handles.length = wF.toList 0
    ∧ (write_through wF 0 3 "Z").toList wE.handles.length = wF.toList wE.handles.length :=
  C3_read_then_copy (w := wD)
    (by show WFb wD = true; decide)
    (show read_mut true wD 0 3 = (wE, none) by decide)
    (show copy_ctor true wE 0 = (wF, none) by decide)

/-- C4 (amended): move construction transfers both the snapshot
reference and the unshareable flag to the new handle and detaches the
source.  Move assignment transfers the snapshot reference and detaches
the source, but always clears the destination's flag to `false` instead
of transferring the source's flag (the by-value `operator=` ends with
`unsharable = false`). -/
theorem C4_amended :
    (∀ (w : World K V) (src : Nat),
      ((move_ctor w src).h w.handles.length).data = (w.h src).data
      ∧ ((move_ctor w src).h w.handles.length).unsharable = (w.h src).unsharable
      ∧ (src < w.handles.length → ((move_ctor w src).h src).data = none))
    ∧ (∀ (w : World K V) (dst src : Nat),
        dst < w.handles.length → src < w.handles.length → dst ≠ src →
        ((move_assign w dst src).h dst).data = (w.h src).data
        ∧ ((move_assign w dst src).h dst).unsharable = false
        ∧ ((move_assign w dst src).h src).data = none) := by
  constructor
  · intro w src
    have hlen : (w.handles.set src ⟨none, (w.h src).unsharable⟩).length = w.handles.length :=
      List.length_set _ _ _
    have hj : (move_ctor w src).h w.handles.length
        = ⟨(w.h src).data, (w.h src).unsharable⟩ := by
      show ((w.handles.set src _) ++ [_]).getD w.handles.length _ = _
      rw [← hlen]
      exact getD_append_len _ _ _
    refine ⟨by rw [hj], by rw [hj], ?_⟩
    intro hsrc
    have hs : (move_ctor w src).h src = ⟨none, (w.h src).unsharable⟩ := by
      show ((w.handles.set src _) ++ [_]).getD src _ = _
      rw [getD_append_lt _ _ _ _ (by rw [hlen]; exact hsrc)]
      exact getD_set_self _ _ _ _ hsrc
    rw [hs]
  · intro w dst src hdst hsrc hne
    have hd : (move_assign w dst src).h dst = ⟨(w.h src).data, false⟩ := by
      show ((w.handles.set src _).set dst _).getD dst _ = _
      exact getD_set_self _ _ _ _ (by rw [List.length_set]; exact hdst)
    have hsv : (move_assign w dst src).h src = ⟨none, (w.h src).unsharable⟩ := by
      show ((w.handles.set src _).set dst _).getD src _ = _
      rw [getD_set_ne _ _ _ _ _ hne]
      exact getD_set_self _ _ _ _ hsrc
    exact ⟨by rw [hd], by rw [hd], by rw [hsv]⟩

/-- Closed instance of `C4_amended` on the scenario world `wF`
(source unsharable, two live handles). -/
theorem C4_witness :
    (((move_ctor wF 1).h wF.handles.length).data = (wF.h 1).data
      ∧ ((move_ctor wF 1).h wF.handles.length).unsharable = (wF.h 1).unsharable
      ∧ (1 < wF.handles.length → ((move_ctor wF 1).h 1).data = none))
    ∧ (((move_assign wF 1 0).h 1).data = (wF.h 0).data
      ∧ ((move_assign wF 1 0).h 1).unsharable = false
      ∧ ((move_assign wF 1 0).h 0).data = none) :=
  ⟨⟨(C4_amended.1 wF 1).1, (C4_amended.1 wF 1).2.1, fun h => (C4_amended.1 wF 1).2.2 h⟩,
    C4_amended.2 wF 1 0 (by decide) (by decide) (by decide)⟩

/-- C5 (amended): `remove(k)` with `k` absent fails with the
key-not-found error; `insert_front` with `k` present fails with
key-already-exists; `insert_after` with `k` present fails with
key-already-exists provided the anchor `prev_k` is present — if the
anchor is absent the prev-key-not-found error takes precedence even when
`k` is a duplicate; `remove()` on an empty handle fails with the
empty-container error.  After each rejected call the returned state is
exactly the pre-call state. -/
theorem C5_amended :
    (∀ (w : World K V) (i : Nat) (k : K) (o2 : Bool),
      hasKey w i k = false → remove_key o2 w i k = (w, some BErr.keyNotFound))
    ∧ (∀ (w : World K V) (i : Nat) (k : K) (v : V) (o1 o2 o3 o4 : Bool),
        hasKey w i k = true →
          insert_front o1 o2 o3 o4 w i k v = (w, some BErr.keyExists))
    ∧ (∀ (w : World K V) (i : Nat) (pk k : K) (v : V) (o2 o3 o4 : Bool),
        hasKey w i pk = true → hasKey w i k = true →
          insert_after o2 o3 o4 w i pk k v = (w, some BErr.keyExists))
    ∧ (∀ (w : World K V) (i : Nat) (pk k : K) (v : V) (o2 o3 o4 : Bool),
        hasKey w i pk = false →
          insert_after o2 o3 o4 w i pk k v = (w, some BErr.prevKeyNotFound))
    ∧ (∀ (w : World K V) (i : Nat) (o2 : Bool),
        w.size i = 0 → remove_front o2 w i = (w, some BErr.emptyBinder)) := by
  refine ⟨?_, ?_, ?_, ?_, ?_⟩
  · intro w i k o2 hk
    rw [hasKey] at hk
    rw [remove_key]
    cases hd : (w.h i).data with
    | none => simp [hd]
    | some a =>
      rw [hd] at hk
      simp only [decide_eq_false_iff_not] at hk
      simp [hd, hk]
  · intro w i k v o1 o2 o3 o4 hk
    rw [hasKey] at hk
    rw [insert_front]
    cases hd : (w.h i).data with
    | none => rw [hd] at hk; simp at hk
    | some a =>
      rw [hd] at hk
      simp only [decide_eq_true_eq] at hk
      simp [hd, hk]
  · intro w i pk k v o2 o3 o4 hpk hk
    rw [hasKey] at hpk hk
    rw [insert_after]
    cases hd : (w.h i).data with
    | none => rw [hd] at hk; simp at hk
    | some a =>
      rw [hd] at hpk hk
      simp only [decide_eq_true_eq] at hpk hk
      simp [hd, hpk, hk]
  · intro w i pk k v o2 o3 o4 hpk
    rw [hasKey] at hpk
    rw [insert_after]
    cases hd : (w.h i).data with
    | none => simp [hd]
    | some a =>
      rw [hd] at hpk
      simp only [decide_eq_false_iff_not] at hpk
      simp [hd, hpk]
  · intro w i o2 hsz
    rw [World.size] at hsz
    rw [remove_front]
    cases hd : (w.h i).data with
    | none => simp [hd]
    | some a =>
      rw [hd] at hsz
      replace hsz : (w.snap a).notes.length = 0 := hsz
      have hn : (w.snap a).notes = [] := List.length_eq_zero.mp hsz
      show (match (w.snap a).notes with
            | [] => ((w, some BErr.emptyBinder) : World K V × Option BErr)
            | e :: _ => remove_key o2 w i e.1) = (w, some BErr.emptyBinder)
      rw [hn]

/-- Closed instance of `C5_amended`: removing the absent key `5` from
`wB` is rejected with key-not-found and returns `wB` unchanged. -/
theorem C5_witness :
    remove_key true wB 0 (5 : Nat) = (wB, some BErr.keyNotFound) :=
  C5_amended.1 wB 0 5 true (by decide)

/-! ### Iteration order refines the logical placement semantics -/

theorem mutStep_ok {w w' : World K V} {i : Nat} {op : COp K V}
    (hwf : WF w) (hi : i < w.handles.length)
    (h : step w (copAct i op) = (w', none)) :
    specStep (w.toList i) op = some (w'.toList i)
    ∧ WF w' ∧ w'.handles.length = w.handles.length := by
  cases op with
  | ifront k v =>
    replace h : insert_front true true true true w i k v = (w', none) := h
    cases hd : (w.h i).data with
    | none =>
      obtain ⟨htl, _, hlen, _, _, hwf'⟩ := insert_front_none_ok hwf hi hd h
      have hl : w.toList i = [] := by rw [World.toList, hd]
      refine ⟨?_, hwf', hlen⟩
      rw [hl, htl]
      show (if k ∈ ([] : List (K × V)).map Prod.fst then none else some [(k, v)]) = some [(k, v)]
      simp
    | some a =>
      obtain ⟨hk, htl, _, hlen, _, _, hwf'⟩ := insert_front_some_ok hwf hd h
      have hl : w.toList i = (w.snap a).notes := by rw [World.toList, hd]
      refine ⟨?_, hwf', hlen⟩
      rw [hl, htl]
      show (if k ∈ (w.snap a).notes.map Prod.fst then none
            else some ((k, v) :: (w.snap a).notes)) = some ((k, v) :: (w.snap a).notes)
      rw [if_neg (show k ∉ (w.snap a).notes.map Prod.fst from hk)]
  | iafter pk k v =>
    replace h : insert_after true true true w i pk k v = (w', none) := h
    cases hd : (w.h i).data with
    | none =>
      rw [insert_after] at h
      simp [hd] at h
    | some a =>
      obtain ⟨hpk, hk, htl, _, hlen, _, _, hwf'⟩ := insert_after_ok hwf hd h
      have hl : w.toList i = (w.snap a).notes := by rw [World.toList, hd]
      refine ⟨?_, hwf', hlen⟩
      rw [hl, htl]
      show (if pk ∈ (w.snap a).notes.map Prod.fst ∧ ¬ k ∈ (w.snap a).notes.map Prod.fst then
              some (listInsertAt ((w.snap a).notes.findIdx (fun e => decide (e.1 = pk)) + 1)
                (k, v) (w.snap a).notes)
            else none) = _
      rw [if_pos (show pk ∈ (w.snap a).notes.map Prod.fst ∧ ¬ k ∈ (w.snap a).notes.map Prod.fst
        from ⟨hpk, hk⟩)]
  | rfront =>
    replace h : remove_front true w i = (w', none) := h
    cases hd : (w.h i).data with
    | none =>
      rw [remove_front] at h
      simp [hd] at h
    | some a =>
      rw [remove_front] at h
      simp only [hd] at h
      cases hn : (w.snap a).notes with
      | nil =>
        rw [hn] at h
        simp at h
      | cons e rest =>
        rw [hn] at h
        obtain ⟨_, htl, _, hlen, _, _, hwf'⟩ := remove_key_ok hwf hd h
        have hl : w.toList i = e :: rest := by
          rw [World.toList, hd]
          exact hn
        refine ⟨?_, hwf', hlen⟩
        rw [hl, htl, hn]
        show some rest = some (List.eraseP (fun x => decide (x.1 = e.1)) (e :: rest))
        rw [List.eraseP_cons_of_pos (l := rest) (by simp)]
  | rkey k =>
    replace h : remove_key true w i k = (w', none) := h
    cases hd : (w.h i).data with
    | none =>
      rw [remove_key] at h
      simp [hd] at h
    | some a =>
      obtain ⟨hk, htl, _, hlen, _, _, hwf'⟩ := remove_key_ok hwf hd h
      have hl : w.toList i = (w.snap a).notes := by rw [World.toList, hd]
      refine ⟨?_, hwf', hlen⟩
      rw [hl, htl]
      show (if k ∈ (w.snap a).notes.map Prod.fst then
              some ((w.snap a).notes.eraseP (fun e => decide (e.1 = k)))
            else none) = _
      rw [if_pos (show k ∈ (w.snap a).notes.map Prod.fst from hk)]

theorem runOps_spec {i : Nat} : ∀ (ops : List (COp K V)) (w w' : World K V),
    WF w → i < w.handles.length → runOps w i ops = (w', true) →
    specRun (w.toList i) ops = some (w'.toList i) := by
  intro ops
  induction ops with
  | nil =>
    intro w w' hwf hi h
    rw [runOps] at h
    simp only [Prod.mk.injEq] at h
    rw [h.1]
    rfl
  | cons op ops ih =>
    intro w w' hwf hi h
    rw [runOps] at h
    cases hsp : step w (copAct i op) with
    | mk w1 e1 =>
      rw [hsp] at h
      cases e1 with
      | some e => simp at h
      | none =>
        obtain ⟨hspec, hwf1, hlen⟩ := mutStep_ok hwf hi hsp
        show (match specStep (w.toList i) op with
              | none => none
              | some l2 => specRun l2 ops) = some (w'.toList i)
        rw [hspec]
        exact ih w1 w' hwf1 (by rw [hlen]; exact hi) h

/-- C6: for every sequence of container mutator calls on one (initially
empty) handle in which every call succeeds, the sequence visited by
iterating `cbegin()`..`cend()` is exactly the logical order defined by
the calls' placement (insert_front places first, insert_after places
immediately after the anchor's entry, the removes delete), and `size()`
equals the number of entries inserted and not yet removed (the length of
that logical order). -/
theorem C6_iteration_order {w w' : World K V} {i : Nat} {ops : List (COp K V)}
    (hwf : WF w) (hi : i < w.handles.length) (hd : (w.h i).data = none)
    (hrun : runOps w i ops = (w', true)) :
    specRun [] ops = some (w'.toList i)
    ∧ w'.size i = (w'.toList i).length := by
  have h0 : w.toList i = [] := by rw [World.toList, hd]
  have hs := runOps_spec ops w w' hwf hi hrun
  rw [h0] at hs
  exact ⟨hs, size_eq_toList_length w' i⟩

/-- Closed instance of `C6_iteration_order`: the scenario call sequence
run from a fresh handle. -/
theorem C6_witness :
    specRun [] [COp.ifront 1 "a", COp.ifront 2 "b", COp.iafter 2 3 "c", COp.rkey 1]
      = some ((runOps wA 0
          [COp.ifront 1 "a", COp.ifront 2 "b", COp.iafter 2 3 "c", COp.rkey 1]).1.toList 0)
    ∧ (runOps wA 0
        [COp.ifront 1 "a", COp.ifront 2 "b", COp.iafter 2 3 "c", COp.rkey 1]).1.size 0
      = ((runOps wA 0
          [COp.ifront 1 "a", COp.ifront 2 "b", COp.iafter 2 3 "c", COp.rkey 1]).1.toList 0).length :=
  C6_iteration_order (by show WFb wA = true; decide) (by decide) (by decide) (by decide)

/-! ### The sharing invariant -/

theorem flagCount_append (l l' : List BinderSt) (a : Nat) :
    flagCount (l ++ l') a = flagCount l a + flagCount l' a := by
  induction l with
  | nil => simp [flagCount]
  | cons x xs ih =>
    show (if x.data = some a ∧ x.unsharable = true then 1 else 0) + flagCount (xs ++ l') a
        = ((if x.data = some a ∧ x.unsharable = true then 1 else 0) + flagCount xs a)
          + flagCount l' a
    rw [ih]
    omega

theorem flagCount_set (l : List BinderSt) (i : Nat) (x : BinderSt) (a : Nat) (h : i < l.length) :
    flagCount (l.set i x) a
      + (if (l.getD i ⟨none, false⟩).data = some a
            ∧ (l.getD i ⟨none, false⟩).unsharable = true then 1 else 0)
      = flagCount l a + (if x.data = some a ∧ x.unsharable = true then 1 else 0) := by
  induction l generalizing i with
  | nil => simp at h
  | cons y ys ih =>
    cases i with
    | zero =>
      simp only [List.set_cons_zero, List.getD_cons_zero, flagCount]
      omega
    | succ n =>
      simp only [List.set_cons_succ, List.getD_cons_succ, flagCount]
      have hih := ih n (by simpa using h)
      omega

theorem flagCount_le_refCount (l : List BinderSt) (a : Nat) :
    flagCount l a ≤ refCount l a := by
  induction l with
  | nil => exact Nat.le_refl 0
  | cons x xs ih =>
    show (if x.data = some a ∧ x.unsharable = true then 1 else 0) + flagCount xs a
        ≤ (if x.data = some a then 1 else 0) + refCount xs a
    have hx : (if x.data = some a ∧ x.unsharable = true then 1 else 0)
        ≤ (if x.data = some a then 1 else 0) := by
      by_cases hd : x.data = some a <;> by_cases hf : x.unsharable = true <;> simp [hd, hf]
    omega

theorem flagCount_succ_le_refCount (l : List BinderSt) (i a : Nat) (h : i < l.length)
    (hd : (l.getD i ⟨none, false⟩).data = some a)
    (hf : (l.getD i ⟨none, false⟩).unsharable = false) :
    flagCount l a + 1 ≤ refCount l a := by
  induction l generalizing i with
  | nil => simp at h
  | cons y ys ih =>
    cases i with
    | zero =>
      simp only [List.getD_cons_zero] at hd hf
      show (if y.data = some a ∧ y.unsharable = true then 1 else 0) + flagCount ys a + 1
          ≤ (if y.data = some a then 1 else 0) + refCount ys a
      rw [if_pos hd, if_neg (fun hx => by rw [hf] at hx; exact Bool.false_ne_true hx.2)]
      have hle := flagCount_le_refCount ys a
      omega
    | succ n =>
      simp only [List.getD_cons_succ] at hd hf
      have hih := ih n (by simpa using h) hd hf
      show (if y.data = some a ∧ y.unsharable = true then 1 else 0) + flagCount ys a + 1
          ≤ (if y.data = some a then 1 else 0) + refCount ys a
      have hy : (if y.data = some a ∧ y.unsharable = true then 1 else 0)
          ≤ (if y.data = some a then 1 else 0) := by
        by_cases h1 : y.data = some a <;> by_cases h2 : y.unsharable = true <;> simp [h1, h2]
      omega

theorem flagCount_pos_of_mem {l : List BinderSt} {hb : BinderSt} {a : Nat}
    (hm : hb ∈ l) (hd : hb.data = some a) (hf : hb.unsharable = true) :
    1 ≤ flagCount l a := by
  induction l with
  | nil => cases hm
  | cons y ys ih =>
    rcases List.mem_cons.mp hm with heq | hm2
    · show 1 ≤ (if y.data = some a ∧ y.unsharable = true then 1 else 0) + flagCount ys a
      rw [if_pos (by rw [← heq]; exact ⟨hd, hf⟩)]
      omega
    · have hih := ih hm2
      show 1 ≤ (if y.data = some a ∧ y.unsharable = true then 1 else 0) + flagCount ys a
      omega

theorem refCount_pos_of_mem {l : List BinderSt} {hb : BinderSt} {a : Nat}
    (hm : hb ∈ l) (hd : hb.data = some a) : 1 ≤ refCount l a := by
  induction l with
  | nil => cases hm
  | cons y ys ih =>
    rcases List.mem_cons.mp hm with heq | hm2
    · show 1 ≤ (if y.data = some a then 1 else 0) + refCount ys a
      rw [if_pos (by rw [← heq]; exact hd)]
      omega
    · have hih := ih hm2
      show 1 ≤ (if y.data = some a then 1 else 0) + refCount ys a
      omega

theorem exists_flag_of_pos {l : List BinderSt} {a : Nat} (h : 1 ≤ flagCount l a) :
    ∃ hb, hb ∈ l ∧ hb.data = some a ∧ hb.unsharable = true := by
  induction l with
  | nil => simp [flagCount] at h
  | cons y ys ih =>
    by_cases hy : y.data = some a ∧ y.unsharable = true
    · exact ⟨y, List.mem_cons_self _ _, hy.1, hy.2⟩
    · replace h : 1 ≤ flagCount ys a := by
        have he : flagCount (y :: ys) a
            = (if y.data = some a ∧ y.unsharable = true then 1 else 0) + flagCount ys a := rfl
        rw [he, if_neg hy] at h
        omega
      obtain ⟨hb, hm, h1, h2⟩ := ih h
      exact ⟨hb, List.mem_cons_of_mem _ hm, h1, h2⟩

theorem inv_iff_cntInv (w : World K V) : Inv w ↔ CntInv w.handles := by
  unfold Inv Invb CntInv
  rw [List.all_eq_true]
  constructor
  · intro h a
    by_cases hz : flagCount w.handles a = 0
    · exact Or.inl hz
    · right
      obtain ⟨hb, hm, hd, hf⟩ := exists_flag_of_pos (Nat.one_le_iff_ne_zero.mpr hz)
      have h2 := h hb hm
      rw [hf, hd] at h2
      simp only [Bool.not_true, Bool.false_or] at h2
      replace h2 : (w.useCount a == 1) = true := h2
      have h3 : w.useCount a = 1 := by simpa using h2
      exact h3
  · intro h hb hm
    cases hf : hb.unsharable with
    | false => rfl
    | true =>
      show (match hb.data with
            | none => true
            | some a => w.useCount a == 1) = true
      cases hd : hb.data with
      | none => rfl
      | some a =>
        rcases h a with h0 | h1
        · have hpos := flagCount_pos_of_mem hm hd hf
          omega
        · change (w.useCount a == 1) = true
          have h3 : w.useCount a = 1 := h1
          simp [h3]

theorem cntInv_set_none {hs : List BinderSt} {i : Nat} {b : Bool}
    (hi : i < hs.length) (hinv : CntInv hs) : CntInv (hs.set i ⟨none, b⟩) := by
  intro a
  have e1 := refCount_set hs i ⟨none, b⟩ a hi
  have e2 := flagCount_set hs i ⟨none, b⟩ a hi
  have le1 := flagCount_le_refCount (hs.set i ⟨none, b⟩) a
  have hinva := hinv a
  rw [if_neg (show ¬ ((⟨none, b⟩ : BinderSt).data = some a) by simp)] at e1
  rw [if_neg (show ¬ ((⟨none, b⟩ : BinderSt).data = some a
      ∧ (⟨none, b⟩ : BinderSt).unsharable = true) by simp)] at e2
  by_cases hoa : (hs.getD i ⟨none, false⟩).data = some a
  · rw [if_pos hoa] at e1
    by_cases hof : (hs.getD i ⟨none, false⟩).unsharable = true
    · rw [if_pos ⟨hoa, hof⟩] at e2
      omega
    · rw [if_neg (fun hx => hof hx.2)] at e2
      omega
  · rw [if_neg hoa] at e1
    rw [if_neg (fun hx => hoa hx.1)] at e2
    omega

theorem cntInv_set_target {hs : List BinderSt} {i t : Nat} {b : Bool}
    (hi : i < hs.length)
    (hrc : refCount hs t = if (hs.getD i ⟨none, false⟩).data = some t then 1 else 0)
    (hinv : CntInv hs) : CntInv (hs.set i ⟨some t, b⟩) := by
  intro a
  have e1 := refCount_set hs i ⟨some t, b⟩ a hi
  have e2 := flagCount_set hs i ⟨some t, b⟩ a hi
  have le1 := flagCount_le_refCount (hs.set i ⟨some t, b⟩) a
  have hinva := hinv a
  by_cases hat : t = a
  · subst hat
    right
    rw [if_pos (show (⟨some t, b⟩ : BinderSt).data = some t from rfl)] at e1
    by_cases hot : (hs.getD i ⟨none, false⟩).data = some t
    · rw [if_pos hot] at e1 hrc
      omega
    · rw [if_neg hot] at e1 hrc
      omega
  · rw [if_neg (show ¬ ((⟨some t, b⟩ : BinderSt).data = some a) by simp [hat])] at e1
    rw [if_neg (show ¬ ((⟨some t, b⟩ : BinderSt).data = some a
        ∧ (⟨some t, b⟩ : BinderSt).unsharable = true) by simp [hat])] at e2
    by_cases hoa : (hs.getD i ⟨none, false⟩).data = some a
    · rw [if_pos hoa] at e1
      by_cases hof : (hs.getD i ⟨none, false⟩).unsharable = true
      · rw [if_pos ⟨hoa, hof⟩] at e2
        omega
      · rw [if_neg (fun hx => hof hx.2)] at e2
        omega
    · rw [if_neg hoa] at e1
      rw [if_neg (fun hx => hoa hx.1)] at e2
      omega

theorem cntInv_set_share {hs : List BinderSt} {i a0 : Nat}
    (hi : i < hs.length) (hfc : flagCount hs a0 = 0) (hinv : CntInv hs) :
    CntInv (hs.set i ⟨some a0, false⟩) := by
  intro a
  have e1 := refCount_set hs i ⟨some a0, false⟩ a hi
  have e2 := flagCount_set hs i ⟨some a0, false⟩ a hi
  have le1 := flagCount_le_refCount (hs.set i ⟨some a0, false⟩) a
  have hinva := hinv a
  rw [if_neg (show ¬ ((⟨some a0, false⟩ : BinderSt).data = some a
      ∧ (⟨some a0, false⟩ : BinderSt).unsharable = true) by simp)] at e2
  by_cases hat : a0 = a
  · subst hat
    left
    by_cases hoa : (hs.getD i ⟨none, false⟩).data = some a0
    · by_cases hof : (hs.getD i ⟨none, false⟩).unsharable = true
      · rw [if_pos ⟨hoa, hof⟩] at e2
        have hp : 1 ≤ flagCount hs a0 := by omega
        omega
      · rw [if_neg (fun hx => hof hx.2)] at e2
        omega
    · rw [if_neg (fun hx => hoa hx.1)] at e2
      omega
  · rw [if_neg (show ¬ ((⟨some a0, false⟩ : BinderSt).data = some a) by simp [hat])] at e1
    by_cases hoa : (hs.getD i ⟨none, false⟩).data = some a
    · rw [if_pos hoa] at e1
      by_cases hof : (hs.getD i ⟨none, false⟩).unsharable = true
      · rw [if_pos ⟨hoa, hof⟩] at e2
        omega
      · rw [if_neg (fun hx => hof hx.2)] at e2
        omega
    · rw [if_neg hoa] at e1
      rw [if_neg (fun hx => hoa hx.1)] at e2
      omega

theorem cntInv_append {hs : List BinderSt} {x : BinderSt}
    (hx : x.data = none
      ∨ (∃ a0, x.data = some a0 ∧ refCount hs a0 = 0)
      ∨ (∃ a0, x.data = some a0 ∧ x.unsharable = false ∧ flagCount hs a0 = 0))
    (hinv : CntInv hs) : CntInv (hs ++ [x]) := by
  intro a
  have e1 : refCount (hs ++ [x]) a
      = refCount hs a + (if x.data = some a then 1 else 0) := by
    rw [refCount_append]
    show refCount hs a + ((if x.data = some a then 1 else 0) + 0)
        = refCount hs a + (if x.data = some a then 1 else 0)
    omega
  have e2 : flagCount (hs ++ [x]) a
      = flagCount hs a + (if x.data = some a ∧ x.unsharable = true then 1 else 0) := by
    rw [flagCount_append]
    show flagCount hs a + ((if x.data = some a ∧ x.unsharable = true then 1 else 0) + 0)
        = flagCount hs a + (if x.data = some a ∧ x.unsharable = true then 1 else 0)
    omega
  have le0 := flagCount_le_refCount hs a
  have hinva := hinv a
  rcases hx with hn | ⟨a0, hda, hrc⟩ | ⟨a0, hda, hfl, hfc⟩
  · rw [if_neg (by rw [hn]; simp)] at e1
    rw [if_neg (by rw [hn]; simp)] at e2
    omega
  · by_cases hat : a0 = a
    · subst hat
      right
      rw [if_pos hda] at e1
      have hfca : flagCount hs a0 = 0 := by omega
      rw [e1, hrc]
    · rw [if_neg (by rw [hda]; simp [hat])] at e1
      rw [if_neg (by rw [hda]; simp [hat])] at e2
      omega
  · by_cases hat : a0 = a
    · subst hat
      left
      rw [if_neg (by rw [hfl]; simp)] at e2
      omega
    · rw [if_neg (by rw [hda]; simp [hat])] at e1
      rw [if_neg (by rw [hda]; simp [hat])] at e2
      omega

/-- The target returned by `going_to_edit` satisfies the reference-count
side condition of `cntInv_set_target` for the calling handle. -/
theorem goEdit_target_rc {o2 : Bool} {w w2 : World K V} {ad t : Nat} {c : Bool} {i : Nat}
    (hwf : WF w) (hd : (w.h i).data = some ad)
    (hge : goEdit o2 w ad = some (w2, t, c)) :
    w2.handles = w.handles
    ∧ refCount w.handles t = (if (w.h i).data = some t then 1 else 0) := by
  obtain ⟨hh, _, _, _, _, hct, hcf⟩ := goEdit_spec hge
  refine ⟨hh, ?_⟩
  cases c with
  | true =>
    obtain ⟨rfl, _, _⟩ := hct rfl
    have hz : refCount w.handles w.heap.length = 0 :=
      useCount_eq_zero_of_ge hwf (Nat.le_refl _)
    rw [hz, if_neg]
    rw [hd]
    simp only [Option.some.injEq]
    exact fun hx => Nat.ne_of_lt (wf_h hwf hd) hx
  | false =>
    obtain ⟨_, hta, hle⟩ := hcf rfl
    rw [hta, if_pos hd]
    have hp : 1 ≤ refCount w.handles ad :=
      refCount_pos _ _ _ (data_some_lt_length hd) hd
    have hle2 : refCount w.handles ad ≤ 1 := hle
    omega

theorem remove_key_handles {o2 : Bool} {w w' : World K V} {i : Nat} {k : K} {r : Option BErr}
    (hwf : WF w) (hstep : remove_key o2 w i k = (w', r)) :
    w'.handles = w.handles
    ∨ ∃ t b2, w'.handles = w.handles.set i ⟨some t, b2⟩
        ∧ refCount w.handles t = (if (w.h i).data = some t then 1 else 0) := by
  rw [remove_key] at hstep
  cases hd : (w.h i).data with
  | none =>
    simp only [hd, Prod.mk.injEq] at hstep
    exact Or.inl (by rw [← hstep.1])
  | some ad =>
    simp only [hd] at hstep
    by_cases hk : k ∈ (w.snap ad).keys
    case neg =>
      rw [if_pos hk] at hstep
      simp only [Prod.mk.injEq] at hstep
      exact Or.inl (by rw [← hstep.1])
    case pos =>
      rw [if_neg (by simp [hk])] at hstep
      cases hge : goEdit o2 w ad with
      | none =>
        rw [hge] at hstep
        simp only [Prod.mk.injEq] at hstep
        exact Or.inl (by rw [← hstep.1])
      | some res =>
        obtain ⟨w2, t, c⟩ := res
        rw [hge] at hstep
        obtain ⟨hh, hrc⟩ := goEdit_target_rc hwf hd hge
        rw [hd] at hrc
        simp only [Prod.mk.injEq] at hstep
        refine Or.inr ⟨t, false, ?_, hrc⟩
        rw [← hstep.1]
        show w2.handles.set i _ = _
        rw [hh]

/-- Every outcome of a mutating operation either leaves the handle list
unchanged or overwrites the subject handle with a pointer to a target
whose prior reference count is 1 when the handle already held it and 0
otherwise. -/
theorem mut_handles {w w' : World K V} {a : Act K V} {r : Option BErr}
    (hm : MutAct a) (hwf : WF w) (hstep : step w a = (w', r)) :
    w'.handles = w.handles
    ∨ ∃ t b2, w'.handles = w.handles.set (actIdx a) ⟨some t, b2⟩
        ∧ refCount w.handles t = (if (w.h (actIdx a)).data = some t then 1 else 0) := by
  cases a with
  | insertFront o1 o2 o3 o4 i k v =>
    replace hstep : insert_front o1 o2 o3 o4 w i k v = (w', r) := hstep
    show w'.handles = w.handles
      ∨ ∃ t b2, w'.handles = w.handles.set i ⟨some t, b2⟩
          ∧ refCount w.handles t = (if (w.h i).data = some t then 1 else 0)
    rw [insert_front] at hstep
    cases hd : (w.h i).data with
    | some ad =>
      simp only [hd] at hstep
      by_cases hk : k ∈ (w.snap ad).keys
      · rw [if_pos hk] at hstep
        simp only [Prod.mk.injEq] at hstep
        exact Or.inl (by rw [← hstep.1])
      · rw [if_neg hk] at hstep
        cases hge : goEdit o2 w ad with
        | none =>
          rw [hge] at hstep
          simp only [Prod.mk.injEq] at hstep
          exact Or.inl (by rw [← hstep.1])
        | some res =>
          obtain ⟨w2, t, c⟩ := res
          rw [hge] at hstep
          obtain ⟨hh, hrc⟩ := goEdit_target_rc hwf hd hge
          cases o34 : (o3 && o4) with
          | false =>
            rw [o34] at hstep
            simp only [Bool.false_eq_true, if_false, Prod.mk.injEq] at hstep
            exact Or.inl (by rw [← hstep.1])
          | true =>
            rw [o34] at hstep
            simp only [if_pos, Prod.mk.injEq] at hstep
            refine Or.inr ⟨t, false, ?_, by rw [hd] at hrc; exact hrc⟩
            rw [← hstep.1]
            show w2.handles.set i _ = _
            rw [hh]
    | none =>
      simp only [hd] at hstep
      cases o1 with
      | false =>
        simp only [Bool.false_eq_true, if_false, Prod.mk.injEq] at hstep
        exact Or.inl (by rw [← hstep.1])
      | true =>
        simp only [if_pos] at hstep
        cases hge : goEdit o2 (lazyAlloc w i) w.heap.length with
        | none =>
          rw [hge] at hstep
          simp only [Prod.mk.injEq] at hstep
          refine Or.inr ⟨w.heap.length, (w.h i).unsharable, by rw [← hstep.1]; rfl, ?_⟩
          have hz : refCount w.handles w.heap.length = 0 :=
            useCount_eq_zero_of_ge hwf (Nat.le_refl _)
          rw [hz, if_neg (by simp)]
        | some res =>
          obtain ⟨w2, t, c⟩ := res
          rw [hge] at hstep
          obtain ⟨hh, _, _, _, _, hct, hcf⟩ := goEdit_spec hge
          have htL : w.heap.length ≤ t := by
            cases c with
            | true =>
              have he := (hct rfl).1
              rw [he]
              show w.heap.length ≤ (w.heap ++ [(⟨[]⟩ : Snapshot K V)]).length
              simp
            | false =>
              rw [(hcf rfl).2.1]
          have hz : refCount w.handles t = (if (none : Option Nat) = some t then 1 else 0) := by
            have hz0 : refCount w.handles t = 0 := useCount_eq_zero_of_ge hwf htL
            rw [hz0, if_neg (by simp)]
          cases o34 : (o3 && o4) with
          | false =>
            rw [o34] at hstep
            simp only [Bool.false_eq_true, if_false, Prod.mk.injEq] at hstep
            refine Or.inr ⟨w.heap.length, (w.h i).unsharable, by rw [← hstep.1]; rfl, ?_⟩
            have hz : refCount w.handles w.heap.length = 0 :=
              useCount_eq_zero_of_ge hwf (Nat.le_refl _)
            rw [hz, if_neg (by simp)]
          | true =>
            rw [o34] at hstep
            simp only [if_pos, Prod.mk.injEq] at hstep
            refine Or.inr ⟨t, false, ?_, hz⟩
            rw [← hstep.1]
            show w2.handles.set i _ = _
            rw [hh]
            show ((w.handles.set i _).set i _ : List BinderSt) = _
            rw [List.set_set]
  | insertAfter o2 o3 o4 i pk k v =>
    replace hstep : insert_after o2 o3 o4 w i pk k v = (w', r) := hstep
    show w'.handles = w.handles
      ∨ ∃ t b2, w'.handles = w.handles.set i ⟨some t, b2⟩
          ∧ refCount w.handles t = (if (w.h i).data = some t then 1 else 0)
    rw [insert_after] at hstep
    cases hd : (w.h i).data with
    | none =>
      simp only [hd, Prod.mk.injEq] at hstep
      exact Or.inl (by rw [← hstep.1])
    | some ad =>
      simp only [hd] at hstep
      by_cases hpk : pk ∈ (w.snap ad).keys
      case neg =>
        rw [if_pos hpk] at hstep
        simp only [Prod.mk.injEq] at hstep
        exact Or.inl (by rw [← hstep.1])
      case pos =>
        rw [if_neg (by simp [hpk])] at hstep
        by_cases hk : k ∈ (w.snap ad).keys
        · rw [if_pos hk] at hstep
          simp only [Prod.mk.injEq] at hstep
          exact Or.inl (by rw [← hstep.1])
        · rw [if_neg hk] at hstep
          cases hge : goEdit o2 w ad with
          | none =>
            rw [hge] at hstep
            simp only [Prod.mk.injEq] at hstep
            exact Or.inl (by rw [← hstep.1])
          | some res =>
            obtain ⟨w2, t, c⟩ := res
            rw [hge] at hstep
            obtain ⟨hh, hrc⟩ := goEdit_target_rc hwf hd hge
            cases o34 : (o3 && o4) with
            | false =>
              rw [o34] at hstep
              simp only [Bool.false_eq_true, if_false, Prod.mk.injEq] at hstep
              exact Or.inl (by rw [← hstep.1])
            | true =>
              rw [o34] at hstep
              simp only [if_pos, Prod.mk.injEq] at hstep
              refine Or.inr ⟨t, false, ?_, by rw [hd] at hrc; exact hrc⟩
              rw [← hstep.1]
              show w2.handles.set i _ = _
              rw [hh]
  | removeFront o2 i =>
    replace hstep : remove_front o2 w i = (w', r) := hstep
    show w'.handles = w.handles
      ∨ ∃ t b2, w'.handles = w.handles.set i ⟨some t, b2⟩
          ∧ refCount w.handles t = (if (w.h i).data = some t then 1 else 0)
    rw [remove_front] at hstep
    cases hd : (w.h i).data with
    | none =>
      simp only [hd, Prod.mk.injEq] at hstep
      exact Or.inl (by rw [← hstep.1])
    | some ad =>
      simp only [hd] at hstep
      cases hn : (w.snap ad).notes with
      | nil =>
        rw [hn] at hstep
        simp only [Prod.mk.injEq] at hstep
        exact Or.inl (by rw [← hstep.1])
      | cons e rest =>
        rw [hn] at hstep
        have hres := remove_key_handles hwf hstep
        rw [hd] at hres
        exact hres
  | removeKey o2 i k =>
    replace hstep : remove_key o2 w i k = (w', r) := hstep
    exact remove_key_handles hwf hstep
  | readMut o2 i k =>
    replace hstep : read_mut o2 w i k = (w', r) := hstep
    show w'.handles = w.handles
      ∨ ∃ t b2, w'.handles = w.handles.set i ⟨some t, b2⟩
          ∧ refCount w.handles t = (if (w.h i).data = some t then 1 else 0)
    rw [read_mut] at hstep
    cases hd : (w.h i).data with
    | none =>
      simp only [hd, Prod.mk.injEq] at hstep
      exact Or.inl (by rw [← hstep.1])
    | some ad =>
      simp only [hd] at hstep
      by_cases hk : k ∈ (w.snap ad).keys
      case neg =>
        rw [if_pos hk] at hstep
        simp only [Prod.mk.injEq] at hstep
        exact Or.inl (by rw [← hstep.1])
      case pos =>
        rw [if_neg (by simp [hk])] at hstep
        cases hge : goEdit o2 w ad with
        | none =>
          rw [hge] at hstep
          simp only [Prod.mk.injEq] at hstep
          exact Or.inl (by rw [← hstep.1])
        | some res =>
          obtain ⟨w2, t, c⟩ := res
          rw [hge] at hstep
          obtain ⟨hh, hrc⟩ := goEdit_target_rc hwf hd hge
          rw [hd] at hrc
          simp only [Prod.mk.injEq] at hstep
          refine Or.inr ⟨t, true, ?_, hrc⟩
          rw [← hstep.1]
          show w2.handles.set i _ = _
          rw [hh]
  | defaultCtor => exact False.elim hm
  | copyCtor oc src => exact False.elim hm
  | moveCtor src => exact False.elim hm
  | copyAssign oc dst src => exact False.elim hm
  | moveAssign dst src => exact False.elim hm
  | readConst i k => exact False.elim hm
  | sizeQuery i => exact False.elim hm
  | clearOp i => exact False.elim hm

/-- C8: every binder operation (default/copy/move construction,
copy/move assignment, insert_front, insert_after, remove, remove(k),
mutable and const read, size, clear) preserves the invariant: a handle
whose unshareable flag is set and which references a snapshot is the
sole owner of that snapshot — its use count is exactly 1. -/
theorem C8_invariant {w : World K V} {a : Act K V}
    (hwf : WF w) (hok : actOK w a = true) (hinv : Inv w) : Inv (step w a).1 := by
  rw [inv_iff_cntInv] at hinv ⊢
  cases hsp : step w a with
  | mk w' r =>
    show CntInv w'.handles
    cases a with
    | insertFront o1 o2 o3 o4 i k v =>
      simp only [actOK, decide_eq_true_eq] at hok
      rcases mut_handles (a := Act.insertFront o1 o2 o3 o4 i k v) trivial hwf hsp with he | ⟨t, b2, he, hrc⟩
      · rw [he]; exact hinv
      · rw [he]; exact cntInv_set_target hok hrc hinv
    | insertAfter o2 o3 o4 i pk k v =>
      simp only [actOK, decide_eq_true_eq] at hok
      rcases mut_handles (a := Act.insertAfter o2 o3 o4 i pk k v) trivial hwf hsp with he | ⟨t, b2, he, hrc⟩
      · rw [he]; exact hinv
      · rw [he]; exact cntInv_set_target hok hrc hinv
    | removeFront o2 i =>
      simp only [actOK, decide_eq_true_eq] at hok
      rcases mut_handles (a := Act.removeFront o2 i) trivial hwf hsp with he | ⟨t, b2, he, hrc⟩
      · rw [he]; exact hinv
      · rw [he]; exact cntInv_set_target hok hrc hinv
    | removeKey o2 i k =>
      simp only [actOK, decide_eq_true_eq] at hok
      rcases mut_handles (a := Act.removeKey o2 i k) trivial hwf hsp with he | ⟨t, b2, he, hrc⟩
      · rw [he]; exact hinv
      · rw [he]; exact cntInv_set_target hok hrc hinv
    | readMut o2 i k =>
      simp only [actOK, decide_eq_true_eq] at hok
      rcases mut_handles (a := Act.readMut o2 i k) trivial hwf hsp with he | ⟨t, b2, he, hrc⟩
      · rw [he]; exact hinv
      · rw [he]; exact cntInv_set_target hok hrc hinv
    | defaultCtor =>
      replace hsp : ((default_ctor w, none) : World K V × Option BErr) = (w', r) := hsp
      simp only [Prod.mk.injEq] at hsp
      rw [← hsp.1]
      show CntInv (w.handles ++ [⟨none, false⟩])
      exact cntInv_append (Or.inl rfl) hinv
    | readConst i k =>
      replace hsp : ((w, read_const w i k) : World K V × Option BErr) = (w', r) := hsp
      simp only [Prod.mk.injEq] at hsp
      rw [← hsp.1]
      exact hinv
    | sizeQuery i =>
      replace hsp : ((w, none) : World K V × Option BErr) = (w', r) := hsp
      simp only [Prod.mk.injEq] at hsp
      rw [← hsp.1]
      exact hinv
    | clearOp i =>
      simp only [actOK, decide_eq_true_eq] at hok
      replace hsp : ((clear w i, none) : World K V × Option BErr) = (w', r) := hsp
      simp only [Prod.mk.injEq] at hsp
      rw [← hsp.1]
      show CntInv (w.handles.set i ⟨none, false⟩)
      exact cntInv_set_none hok hinv
    | copyCtor oc src =>
      simp only [actOK, decide_eq_true_eq] at hok
      replace hsp : copy_ctor oc w src = (w', r) := hsp
      rw [copy_ctor] at hsp
      cases hd : (w.h src).data with
      | none =>
        simp only [hd, Prod.mk.injEq] at hsp
        rw [← hsp.1]
        show CntInv (w.handles ++ [⟨none, false⟩])
        exact cntInv_append (Or.inl rfl) hinv
      | some a0 =>
        simp only [hd] at hsp
        cases hf : (w.h src).unsharable with
        | true =>
          rw [hf, if_pos rfl] at hsp
          cases oc with
          | false =>
            simp only [Bool.false_eq_true, if_false, Prod.mk.injEq] at hsp
            rw [← hsp.1]
            exact hinv
          | true =>
            simp only [if_pos, Prod.mk.injEq] at hsp
            rw [← hsp.1]
            show CntInv (w.handles ++ [⟨some w.heap.length, false⟩])
            refine cntInv_append (Or.inr (Or.inl ⟨w.heap.length, rfl, ?_⟩)) hinv
            exact useCount_eq_zero_of_ge hwf (Nat.le_refl _)
        | false =>
          rw [hf, if_neg (by simp)] at hsp
          simp only [Prod.mk.injEq] at hsp
          rw [← hsp.1]
          show CntInv (w.handles ++ [⟨some a0, false⟩])
          refine cntInv_append (Or.inr (Or.inr ⟨a0, rfl, rfl, ?_⟩)) hinv
          rcases hinv a0 with h0 | h1
          · exact h0
          · have hle := flagCount_succ_le_refCount w.handles src a0 hok hd hf
            omega
    | moveCtor src =>
      simp only [actOK, decide_eq_true_eq] at hok
      replace hsp : ((move_ctor w src, none) : World K V × Option BErr) = (w', r) := hsp
      simp only [Prod.mk.injEq] at hsp
      rw [← hsp.1]
      show CntInv ((w.handles.set src ⟨none, (w.h src).unsharable⟩)
        ++ [⟨(w.h src).data, (w.h src).unsharable⟩])
      cases hd : (w.h src).data with
      | none =>
        cases hf : (w.h src).unsharable with
        | true => exact cntInv_append (Or.inl rfl) (cntInv_set_none hok hinv)
        | false => exact cntInv_append (Or.inl rfl) (cntInv_set_none hok hinv)
      | some a0 =>
        cases hf : (w.h src).unsharable with
        | true =>
          have hinv1 : CntInv (w.handles.set src ⟨none, true⟩) := cntInv_set_none hok hinv
          have hfc1 : 1 ≤ flagCount w.handles a0 :=
            flagCount_pos_of_mem (getD_mem _ src _ hok) hd hf
          rcases hinv a0 with h0 | h1
          · omega
          · have e1 := refCount_set w.handles src ⟨none, true⟩ a0 hok
            rw [if_pos (show (w.handles.getD src ⟨none, false⟩).data = some a0 from hd),
              if_neg (by simp)] at e1
            have hz : refCount (w.handles.set src ⟨none, true⟩) a0 = 0 := by omega
            exact cntInv_append (Or.inr (Or.inl ⟨a0, rfl, hz⟩)) hinv1
        | false =>
          have hinv1 : CntInv (w.handles.set src ⟨none, false⟩) := cntInv_set_none hok hinv
          have hfc : flagCount w.handles a0 = 0 := by
            rcases hinv a0 with h0 | h1
            · exact h0
            · have hle := flagCount_succ_le_refCount w.handles src a0 hok hd hf
              omega
          have e2 := flagCount_set w.handles src ⟨none, false⟩ a0 hok
          rw [if_neg (fun hx => by
              have h2 : (w.h src).unsharable = true := hx.2
              rw [hf] at h2
              exact Bool.false_ne_true h2),
            if_neg (by simp)] at e2
          have hz : flagCount (w.handles.set src ⟨none, false⟩) a0 = 0 := by omega
          exact cntInv_append (Or.inr (Or.inr ⟨a0, rfl, rfl, hz⟩)) hinv1
    | copyAssign oc dst src =>
      simp only [actOK, Bool.and_eq_true, decide_eq_true_eq] at hok
      obtain ⟨hdst, hsrc⟩ := hok
      replace hsp : copy_assign oc w dst src = (w', r) := hsp
      rw [copy_assign] at hsp
      cases hd : (w.h src).data with
      | none =>
        simp only [hd, Prod.mk.injEq] at hsp
        rw [← hsp.1]
        show CntInv (w.handles.set dst ⟨none, false⟩)
        exact cntInv_set_none hdst hinv
      | some a0 =>
        simp only [hd] at hsp
        cases hf : (w.h src).unsharable with
        | true =>
          rw [hf, if_pos rfl] at hsp
          cases oc with
          | false =>
            simp only [Bool.false_eq_true, if_false, Prod.mk.injEq] at hsp
            rw [← hsp.1]
            exact hinv
          | true =>
            simp only [if_pos, Prod.mk.injEq] at hsp
            rw [← hsp.1]
            show CntInv (w.handles.set dst ⟨some w.heap.length, false⟩)
            refine cntInv_set_share hdst ?_ hinv
            have hz : refCount w.handles w.heap.length = 0 :=
              useCount_eq_zero_of_ge hwf (Nat.le_refl _)
            have hle := flagCount_le_refCount w.handles w.heap.length
            omega
        | false =>
          rw [hf, if_neg (by simp)] at hsp
          simp only [Prod.mk.injEq] at hsp
          rw [← hsp.1]
          show CntInv (w.handles.set dst ⟨some a0, false⟩)
          refine cntInv_set_share hdst ?_ hinv
          rcases hinv a0 with h0 | h1
          · exact h0
          · have hle := flagCount_succ_le_refCount w.handles src a0 hsrc hd hf
            omega
    | moveAssign dst src =>
      simp only [actOK, Bool.and_eq_true, decide_eq_true_eq] at hok
      obtain ⟨hdst, hsrc⟩ := hok
      replace hsp : ((move_assign w dst src, none) : World K V × Option BErr) = (w', r) := hsp
      simp only [Prod.mk.injEq] at hsp
      rw [← hsp.1]
      show CntInv ((w.handles.set src ⟨none, (w.h src).unsharable⟩).set dst
        ⟨(w.h src).data, false⟩)
      cases hd : (w.h src).data with
      | none =>
        cases hf : (w.h src).unsharable with
        | true =>
          exact cntInv_set_none (by rw [List.length_set]; exact hdst)
            (cntInv_set_none hsrc hinv)
        | false =>
          exact cntInv_set_none (by rw [List.length_set]; exact hdst)
            (cntInv_set_none hsrc hinv)
      | some a0 =>
        cases hf : (w.h src).unsharable with
        | true =>
          have hinv1 : CntInv (w.handles.set src ⟨none, true⟩) := cntInv_set_none hsrc hinv
          refine cntInv_set_share (by rw [List.length_set]; exact hdst) ?_ hinv1
          have hfc1 : 1 ≤ flagCount w.handles a0 :=
            flagCount_pos_of_mem (getD_mem _ src _ hsrc) hd hf
          rcases hinv a0 with h0 | h1
          · omega
          · have e1 := refCount_set w.handles src ⟨none, true⟩ a0 hsrc
            rw [if_pos (show (w.handles.getD src ⟨none, false⟩).data = some a0 from hd),
              if_neg (by simp)] at e1
            have hz : refCount (w.handles.set src ⟨none, true⟩) a0 = 0 := by omega
            have hle := flagCount_le_refCount (w.handles.set src ⟨none, true⟩) a0
            omega
        | false =>
          have hinv1 : CntInv (w.handles.set src ⟨none, false⟩) := cntInv_set_none hsrc hinv
          refine cntInv_set_share (by rw [List.length_set]; exact hdst) ?_ hinv1
          have hfc : flagCount w.handles a0 = 0 := by
            rcases hinv a0 with h0 | h1
            · exact h0
            · have hle := flagCount_succ_le_refCount w.handles src a0 hsrc hd hf
              omega
          have e2 := flagCount_set w.handles src ⟨none, false⟩ a0 hsrc
          rw [if_neg (fun hx => by
              have h2 : (w.h src).unsharable = true := hx.2
              rw [hf] at h2
              exact Bool.false_ne_true h2),
            if_neg (by simp)] at e2
          omega

/-- Closed instance of `C8_invariant`: the invariant holds on the
scenario world `wF` (one unsharable sole-owner handle, one shareable
handle) and is preserved by a further `insert_front`. -/
theorem C8_witness : Inv (step wF (Act.insertFront true true true true 0 7 "x")).1 :=
  C8_invariant (a := Act.insertFront true true true true 0 7 "x")
    (by show WFb wF = true; decide) (by decide) (by show Invb wF = true; decide)

end cxx

namespace polyv

theorem at_loop_eq_foldr (x : Int) (c : List Int) :
    at_loop x c = c.foldr (fun cc acc => cc + x * acc) 0 := by
  induction c with
  | nil => rfl
  | cons y ys ih =>
    cases ys with
    | nil =>
      show y = y + x * 0
      ring
    | cons z zs =>
      show y + x * at_loop x (z :: zs)
          = y + x * ((z :: zs).foldr (fun cc acc => cc + x * acc) 0)
      rw [ih]

theorem polyAt_eq_at_loop (c : List Int) (x : Int) : polyAt c x = at_loop x c := by
  cases c with
  | nil => rfl
  | cons y ys => rfl

theorem foldr_horner_eq_sum (x : Int) (c : List Int) :
    c.foldr (fun cc acc => cc + x * acc) 0
      = (Finset.range c.length).sum fun i => c.getD i 0 * x ^ i := by
  induction c with
  | nil => simp
  | cons y ys ih =>
    show y + x * (ys.foldr (fun cc acc => cc + x * acc) 0) = _
    rw [ih]
    rw [show (y :: ys).length = ys.length + 1 from rfl]
    rw [Finset.sum_range_succ']
    simp only [List.getD_cons_succ, List.getD_cons_zero, pow_zero, mul_one]
    rw [Finset.mul_sum]
    have he : ∀ i ∈ Finset.range ys.length,
        x * (ys.getD i 0 * x ^ i) = ys.getD i 0 * x ^ (i + 1) := by
      intro i _
      ring
    rw [Finset.sum_congr rfl he]
    ring

theorem polyAt_eq_sum (c : List Int) (x : Int) :
    polyAt c x = (Finset.range c.length).sum fun i => c.getD i 0 * x ^ i := by
  rw [polyAt_eq_at_loop, at_loop_eq_foldr, foldr_horner_eq_sum]

theorem coeff_toP (c : List Int) (n : Nat) : (toP c).coeff n = c.getD n 0 := by
  rw [toP, Polynomial.finset_sum_coeff]
  have he : ∀ i ∈ Finset.range c.length,
      (Polynomial.C (c.getD i 0) * Polynomial.X ^ i).coeff n
        = if n = i then c.getD i 0 else 0 := by
    intro i _
    rw [Polynomial.coeff_C_mul, Polynomial.coeff_X_pow]
    by_cases hni : n = i <;> simp [hni]
  rw [Finset.sum_congr rfl he, Finset.sum_ite_eq (Finset.range c.length) n fun i => c.getD i 0]
  by_cases hn : n < c.length
  · rw [if_pos (Finset.mem_range.mpr hn)]
  · rw [if_neg (fun hx => hn (Finset.mem_range.mp hx)),
      List.getD_eq_default _ _ (Nat.le_of_not_lt hn)]

theorem eval_toP (c : List Int) (x : Int) : (toP c).eval x = polyAt c x := by
  rw [toP, Polynomial.eval_finset_sum, polyAt_eq_sum]
  apply Finset.sum_congr rfl
  intro i _
  simp [Polynomial.eval_mul, Polynomial.eval_pow]

theorem getD_map_range (m n : Nat) (f : Nat → Int) :
    ((List.range m).map f).getD n 0 = if n < m then f n else 0 := by
  by_cases h : n < m
  · rw [if_pos h]
    simp [List.getD, List.getElem?_map, List.getElem?_range h]
  · rw [if_neg h, List.getD_eq_default]
    simp only [List.length_map, List.length_range]
    exact Nat.le_of_not_lt h

theorem toP_polyMul (a b : List Int) : toP (polyMul a b) = toP a * toP b := by
  apply Polynomial.ext
  intro n
  rw [coeff_toP, Polynomial.coeff_mul]
  have hco : ∀ p ∈ Finset.antidiagonal n,
      (toP a).coeff p.1 * (toP b).coeff p.2 = a.getD p.1 0 * b.getD p.2 0 := by
    intro p _
    rw [coeff_toP, coeff_toP]
  rw [Finset.sum_congr rfl hco]
  by_cases hab : a.length = 0 ∨ b.length = 0
  · rw [polyMul, if_pos hab]
    rw [show ([] : List Int).getD n 0 = 0 from rfl]
    symm
    apply Finset.sum_eq_zero
    intro p hp
    rcases hab with ha | hb
    · rw [List.getD_eq_default _ _ (by omega : a.length ≤ p.1)]
      ring
    · rw [List.getD_eq_default _ _ (by omega : b.length ≤ p.2)]
      ring
  · push_neg at hab
    rw [polyMul, if_neg (by push_neg; exact hab)]
    rw [getD_map_range]
    by_cases hn : n < a.length + b.length - 1
    · rw [if_pos hn]
      rw [← Finset.sum_product']
      rw [← Finset.sum_filter]
      rw [show (Finset.range a.length ×ˢ Finset.range b.length).filter
            (fun p => p.1 + p.2 = n)
          = (Finset.antidiagonal n).filter (fun p => p.1 < a.length ∧ p.2 < b.length) from ?_]
      · apply Finset.sum_filter_of_ne
        intro p hp hg
        rw [Finset.mem_antidiagonal] at hp
        constructor
        · by_contra hla
          apply hg
          rw [List.getD_eq_default _ _ (Nat.le_of_not_lt hla)]
          ring
        · by_contra hlb
          apply hg
          rw [List.getD_eq_default _ _ (Nat.le_of_not_lt hlb)]
          ring
      · apply Finset.ext
        intro p
        rw [Finset.mem_filter, Finset.mem_filter, Finset.mem_product,
          Finset.mem_antidiagonal, Finset.mem_range, Finset.mem_range]
        constructor
        · rintro ⟨⟨h1, h2⟩, h3⟩
          exact ⟨h3, h1, h2⟩
        · rintro ⟨h3, h1, h2⟩
          exact ⟨⟨h1, h2⟩, h3⟩
    · rw [if_neg hn]
      symm
      apply Finset.sum_eq_zero
      intro p hp
      rw [Finset.mem_antidiagonal] at hp
      have hor : a.length ≤ p.1 ∨ b.length ≤ p.2 := by omega
      rcases hor with h | h
      · rw [List.getD_eq_default _ _ h]
        ring
      · rw [List.getD_eq_default _ _ h]
        ring

/-- C9: for single-variable polynomials over exact integer scalars,
evaluation distributes over `operator*`: `(a * b).at(x) = a.at(x) *
b.at(x)`; and when either size is 0 the product is the size-0
polynomial, which evaluates to zero. -/
theorem C9_mul_eval (a b : List Int) (x : Int) :
    polyAt (polyMul a b) x = polyAt a x * polyAt b x
    ∧ (a = [] ∨ b = [] → polyMul a b = [] ∧ polyAt (polyMul a b) x = 0) := by
  constructor
  · rw [← eval_toP, ← eval_toP, ← eval_toP, toP_polyMul, Polynomial.eval_mul]
  · intro hab
    have h0 : polyMul a b = [] := by
      rw [polyMul, if_pos]
      rcases hab with h | h <;> simp [h]
    refine ⟨h0, ?_⟩
    rw [h0]
    rfl

/-- Closed instance of `C9_mul_eval` with the zero-size hypothesis
discharged on a concrete pair. -/
theorem C9_witness :
    polyAt (polyMul [] [3]) 5 = polyAt [] 5 * polyAt [3] 5
    ∧ polyMul ([] : List Int) [3] = [] ∧ polyAt (polyMul [] [3]) 5 = 0 :=
  ⟨(C9_mul_eval [] [3] 5).1, (C9_mul_eval [] [3] 5).2 (Or.inl rfl)⟩

end polyv

namespace flist

theorem create_apply {α : Type} (xs : List α) (A : Type) (f : α → A → A) (a : A) :
    create xs A f a = xs.foldr f a := by
  induction xs with
  | nil => rfl
  | cons x ys ih =>
    show f x (create ys A f a) = f x (ys.foldr f a)
    rw [ih]

theorem elements_eq {α : Type} (render : α → List Char) (xs : List α) :
    (create xs) (List (List Char)) (fun x acc => acc ++ [render x ++ [';']]) []
      = (xs.map (fun x => render x ++ [';'])).reverse := by
  rw [create_apply]
  induction xs with
  | nil => rfl
  | cons x ys ih =>
    show (ys.foldr (fun x acc => acc ++ [render x ++ [';']]) []) ++ [render x ++ [';']] = _
    rw [ih, List.map_cons, List.reverse_cons]

theorem flatten_map_semi {α : Type} (render : α → List Char) (x : α) (xs : List α) :
    ((x :: xs).map (fun y => render y ++ [';'])).flatten
      = sepBySemi ((x :: xs).map render) ++ [';'] := by
  induction xs generalizing x with
  | nil =>
    show (render x ++ [';']) ++ [] = sepBySemi [render x] ++ [';']
    rw [show sepBySemi [render x] = render x from rfl]
    simp
  | cons z zs ih =>
    show (render x ++ [';']) ++ ((z :: zs).map (fun y => render y ++ [';'])).flatten
        = sepBySemi (render x :: (z :: zs).map render) ++ [';']
    rw [ih z]
    rw [show sepBySemi (render x :: (z :: zs).map render)
        = render x ++ [';'] ++ sepBySemi ((z :: zs).map render) from rfl]
    simp [List.append_assoc]

/-- C10: for every finite element sequence, `as_string(create(x1, ...,
xn))` is the string `"[x1;x2;...;xn]"` — opening bracket, the rendered
elements in construction (left-to-right) order separated by `';'`,
closing bracket — and `as_string(empty)` is `"[]"`. -/
theorem C10_as_string {α : Type} (render : α → List Char) :
    (∀ xs : List α,
      as_string render (create xs) = ['['] ++ sepBySemi (xs.map render) ++ [']'])
    ∧ as_string render empty = ['['] ++ [']'] := by
  constructor
  · intro xs
    have hel : (create xs) (List (List Char)) (fun x acc => acc ++ [render x ++ [';']]) []
        = (xs.map (fun x => render x ++ [';'])).reverse := elements_eq render xs
    cases xs with
    | nil => rfl
    | cons x ys =>
      simp only [as_string, hel, List.reverse_reverse]
      rw [flatten_map_semi]
      have hlen : (['['] ++ (sepBySemi ((x :: ys).map render) ++ [';'])).length > 1 := by
        simp [List.length_append]
      rw [if_pos hlen]
      rw [show ['['] ++ (sepBySemi ((x :: ys).map render) ++ [';'])
          = (['['] ++ sepBySemi ((x :: ys).map render)) ++ [';'] by simp [List.append_assoc]]
      rw [List.dropLast_concat]
  · rfl

end flist
